import Mathlib

/-!
# Formal model of the FleCSPH distributed tree core

This file is a shallow embedding, in Lean 4, of the neighbor-search /
tree-aggregation / FMM core of the FleCSPH repository, together with
theorems settling the claims of its specification.

Conventions of the embedding:
* `double` arithmetic is modelled by `ℚ`; where the C++ code compares
  Euclidean distances (`flecsi::distance(a,b) <= r`) the model compares
  squared distances (`dist2 a b ≤ r^2`), which is equivalent for `0 ≤ r`;
  where an algorithm manipulates a distance value itself (the FMM code
  divides by `dist^3`), the model takes the distance function as an
  explicit parameter `dist`.
* particles (`tree_entity` + `body`) are records `Ent`;
* the built tree (hash map from Morton prefix to `branch`) is viewed
  through its branch structure: an inductive tree `PTree` whose nodes
  carry the branch aggregate fields (`mass`, center-of-mass
  `coords`, bounding box `bmin`/`bmax`, `sub_entities`); the hash-map
  view itself (needed for the refine/coarsen claims) is a separate
  association-list model `BMap` below.
-/

namespace FleCSPH

/-- A point: `point__<element_t, dimension>` with `element_t = double`. -/
def Pt (dim : ℕ) : Type := Fin dim → ℚ

instance (dim : ℕ) : DecidableEq (Pt dim) := by
  unfold Pt; infer_instance

/-- Squared Euclidean distance.  The C++ code computes
`flecsi::distance` (with a square root) and only compares it to radii;
comparisons `distance a b ≤ r` are modelled as `dist2 a b ≤ r^2`. -/
def dist2 {dim : ℕ} (a b : Pt dim) : ℚ :=
  ∑ d : Fin dim, (a d - b d) ^ 2

/-- Locality tag of a `tree_entity`
(`enum locality {LOCAL=0,NONLOCAL=1,SHARED=2,EXCL=3,GHOST=4}`). -/
inductive Loc : Type
  | LOCAL | NONLOCAL | SHARED | EXCL | GHOST
deriving DecidableEq, Repr

/-- `tree_entity::is_local()`:
`locality_ == LOCAL || locality_ == EXCL || locality_ == SHARED`. -/
def Loc.isLocal : Loc → Bool
  | .LOCAL => true
  | .EXCL => true
  | .SHARED => true
  | _ => false

/-- A particle: the fields of `tree_entity`/`body` that the tree core
reads (position, mass, smoothing length, locality tag, id). -/
structure Ent (dim : ℕ) : Type where
  pos : Pt dim
  mass : ℚ
  h : ℚ
  loc : Loc
  ident : ℕ
deriving DecidableEq

/-- Branch aggregate data: `mass_`, center of mass (`coordinates_`),
bounding box `bmin_`/`bmax_`, and `sub_entities_`. -/
structure Agg (dim : ℕ) : Type where
  mass : ℚ
  coords : Pt dim
  bmin : Pt dim
  bmax : Pt dim
  subEnt : ℕ
deriving DecidableEq

/-- The branch structure of a built tree.  A leaf branch holds its
particle list; an interior branch holds its children (the code's
`(1 << dimension)` hash-map children).  Every branch carries its
aggregate fields. -/
inductive PTree (dim : ℕ) : Type
  | leaf (ents : List (Ent dim)) (agg : Agg dim)
  | node (children : List (PTree dim)) (agg : Agg dim)

namespace PTree

/-- The aggregate record of the root branch of `t`. -/
def agg {dim : ℕ} : PTree dim → Agg dim
  | .leaf _ a => a
  | .node _ a => a

/-- `branch::is_leaf()`. -/
def isLeaf {dim : ℕ} : PTree dim → Bool
  | .leaf _ _ => true
  | .node _ _ => false

/-- All entities contained in the subtree, in depth-first order. -/
def entsOf {dim : ℕ} : PTree dim → List (Ent dim)
  | .leaf es _ => es
  | .node cs _ => cs.attach.map (fun c => entsOf c.1) |>.flatten
termination_by t => sizeOf t
decreasing_by
  have := List.sizeOf_lt_of_mem c.2
  simp only [PTree.node.sizeOf_spec]
  omega

/-- Entity list of a branch when viewed as a leaf
(iterating `*b` over a non-leaf branch yields nothing). -/
def leafEnts {dim : ℕ} : PTree dim → List (Ent dim)
  | .leaf es _ => es
  | .node _ _ => []

/-- Custom induction principle for `PTree` (the children are a nested
`List`, so we provide the member-wise recursor by hand). -/
theorem myInduction {dim : ℕ} {P : PTree dim → Prop}
    (hleaf : ∀ es a, P (.leaf es a))
    (hnode : ∀ cs a, (∀ c ∈ cs, P c) → P (.node cs a)) :
    ∀ t, P t := by
  intro t
  induction t using PTree.rec (motive_2 := fun l => ∀ c ∈ l, P c) with
  | leaf es a => exact hleaf es a
  | node cs a ih => exact hnode cs a ih
  | nil =>
    rename_i x hx
    exact absurd hx (List.not_mem_nil x)
  | cons c cs hc hcs =>
    rename_i x hx
    rcases List.mem_cons.mp hx with h | h
    · exact h ▸ hc
    · exact hcs x h

end PTree

/-- Stand-in for the C constant `DBL_MAX` used to initialize the
bounding-box accumulators in `update_branches`. -/
def DBLMAX : ℚ := 2 ^ 1024

/-- Accumulator state of the per-branch aggregation loops of
`update_branches` / `tree_traversal_com`: running mass, mass-weighted
coordinate sum, bounding box, and sub-entity count. -/
structure AggAcc (dim : ℕ) : Type where
  mass : ℚ
  coords : Pt dim
  bmin : Pt dim
  bmax : Pt dim
  n : ℕ

/-- Initial accumulator of `update_branches`
(`bmax[d] = -DBL_MAX; bmin[d] = DBL_MAX`, everything else zero). -/
def aggInit (dim : ℕ) : AggAcc dim where
  mass := 0
  coords := fun _ => 0
  bmin := fun _ => DBLMAX
  bmax := fun _ => -DBLMAX
  n := 0

/-- One iteration of the leaf loop of `update_branches`
(tree_topology.h:470-482): count the entity, expand the box by its
position ± `epsilon`, accumulate mass-weighted coordinates and mass. -/
def ubLeafStep {dim : ℕ} (epsilon : ℚ) (s : AggAcc dim) (e : Ent dim) :
    AggAcc dim where
  mass := s.mass + e.mass
  coords := fun d => s.coords d + e.pos d * e.mass
  bmin := fun d => min (s.bmin d) (e.pos d - epsilon)
  bmax := fun d => max (s.bmax d) (e.pos d + epsilon)
  n := s.n + 1

/-- One iteration of the interior loop of `update_branches`
(tree_topology.h:491-507): accumulate the (already updated) child
branch aggregates; the box is expanded only by children with
`mass() > 0`. -/
def ubNodeStep {dim : ℕ} (s : AggAcc dim) (a : Agg dim) : AggAcc dim where
  mass := s.mass + a.mass
  coords := fun d => s.coords d + a.coords d * a.mass
  bmin := if 0 < a.mass then fun d => min (s.bmin d) (a.bmin d) else s.bmin
  bmax := if 0 < a.mass then fun d => max (s.bmax d) (a.bmax d) else s.bmax
  n := s.n + a.subEnt

/-- Final normalization `coordinates[d] /= mass` when `mass > 0`
(tree_topology.h:483-489, 509-515), and packaging of the accumulator
into the branch aggregate record. -/
def aggFinish {dim : ℕ} (s : AggAcc dim) : Agg dim where
  mass := s.mass
  coords := if 0 < s.mass then fun d => s.coords d / s.mass else s.coords
  bmin := s.bmin
  bmax := s.bmax
  subEnt := s.n

/-- `tree_topology::update_branches(epsilon)` (tree_topology.h:451-525):
the recursive post-order traversal that recomputes every branch's mass,
center of mass, bounding box (with `epsilon` halo at the leaves) and
sub-entity count from the particles. -/
def updateBranches {dim : ℕ} (epsilon : ℚ) : PTree dim → PTree dim
  | .leaf es _ => .leaf es (aggFinish (es.foldl (ubLeafStep epsilon) (aggInit dim)))
  | .node cs _ =>
    let cs2 := cs.attach.map (fun c => updateBranches epsilon c.1)
    .node cs2 (aggFinish (cs2.foldl (fun s c => ubNodeStep s c.agg) (aggInit dim)))
termination_by t => sizeOf t
decreasing_by
  have := List.sizeOf_lt_of_mem c.2
  simp only [PTree.node.sizeOf_spec]
  omega

/-- Initial accumulator of `tree_traversal_com` (part_003:690-693):
`com = {0,0,0}; bmax = {-99999,...}; bmin = {99999,...}`.  The count
field is unused there (`tree_traversal_com` does not write
`sub_entities`). -/
def comInit (dim : ℕ) : AggAcc dim where
  mass := 0
  coords := fun _ => 0
  bmin := fun _ => 99999
  bmax := fun _ => -99999
  n := 0

/-- One iteration of the leaf loop of `tree_traversal_com`
(part_003:697-714): only `is_local()` particles contribute; the box is
expanded by the bare particle positions (no halo). -/
def comLeafStep {dim : ℕ} (s : AggAcc dim) (e : Ent dim) : AggAcc dim :=
  if e.loc.isLocal then
    { mass := s.mass + e.mass
      coords := fun d => s.coords d + e.mass * e.pos d
      bmin := fun d => if e.pos d < s.bmin d then e.pos d else s.bmin d
      bmax := fun d => if s.bmax d < e.pos d then e.pos d else s.bmax d
      n := s.n }
  else s

/-- One iteration of the interior loop of `tree_traversal_com`
(part_003:719-734): accumulate child mass and weighted position, and
expand the box by every child box (no mass guard here, unlike
`update_branches`). -/
def comNodeStep {dim : ℕ} (s : AggAcc dim) (a : Agg dim) : AggAcc dim where
  mass := s.mass + a.mass
  coords := fun d => s.coords d + a.mass * a.coords d
  bmin := fun d => if a.bmin d < s.bmin d then a.bmin d else s.bmin d
  bmax := fun d => if s.bmax d < a.bmax d then a.bmax d else s.bmax d
  n := s.n

/-- Final step of `tree_traversal_com`: `com = com / mass` when
`mass > 0`, then `setMass/setPosition/setBMax/setBMin`.  The previous
`sub_entities` value `n0` of the branch is kept (the function never
writes it). -/
def comFinish {dim : ℕ} (n0 : ℕ) (s : AggAcc dim) : Agg dim where
  mass := s.mass
  coords := if 0 < s.mass then fun d => s.coords d / s.mass else s.coords
  bmin := s.bmin
  bmax := s.bmax
  subEnt := n0

/-- `tree_traversal_com` (part_003:684-757): the FMM-side post-order
center-of-mass recomputation over local particles.  The `assert`s of
the source (`mass > 0`, `!isnan`) are checks that do not alter the
computed values and are not modelled. -/
def comUpdate {dim : ℕ} : PTree dim → PTree dim
  | .leaf es a => .leaf es (comFinish a.subEnt (es.foldl comLeafStep (comInit dim)))
  | .node cs a =>
    let cs2 := cs.attach.map (fun c => comUpdate c.1)
    .node cs2 (comFinish a.subEnt (cs2.foldl (fun s c => comNodeStep s c.agg) (comInit dim)))
termination_by t => sizeOf t
decreasing_by
  have := List.sizeOf_lt_of_mem c.2
  simp only [PTree.node.sizeOf_spec]
  omega

theorem updateBranches_leaf {dim : ℕ} (epsilon : ℚ) (es : List (Ent dim)) (a : Agg dim) :
    updateBranches epsilon (.leaf es a) =
      .leaf es (aggFinish (es.foldl (ubLeafStep epsilon) (aggInit dim))) := by
  rw [updateBranches]

theorem updateBranches_node {dim : ℕ} (epsilon : ℚ) (cs : List (PTree dim)) (a : Agg dim) :
    updateBranches epsilon (.node cs a) =
      .node (cs.map (updateBranches epsilon))
        (aggFinish ((cs.map (updateBranches epsilon)).foldl
          (fun s c => ubNodeStep s c.agg) (aggInit dim))) := by
  rw [updateBranches]
  simp [List.attach_map_coe]

theorem comUpdate_leaf {dim : ℕ} (es : List (Ent dim)) (a : Agg dim) :
    comUpdate (.leaf es a) =
      .leaf es (comFinish a.subEnt (es.foldl comLeafStep (comInit dim))) := by
  rw [comUpdate]

theorem comUpdate_node {dim : ℕ} (cs : List (PTree dim)) (a : Agg dim) :
    comUpdate (.node cs a) =
      .node (cs.map comUpdate)
        (comFinish a.subEnt ((cs.map comUpdate).foldl
          (fun s c => comNodeStep s c.agg) (comInit dim))) := by
  rw [comUpdate]
  simp [List.attach_map_coe]

theorem updateBranches_idem {dim : ℕ} (epsilon : ℚ) (t : PTree dim) :
    updateBranches epsilon (updateBranches epsilon t) = updateBranches epsilon t := by
  induction t using PTree.myInduction with
  | hleaf es a => rw [updateBranches_leaf, updateBranches_leaf]
  | hnode cs a ih =>
    rw [updateBranches_node, updateBranches_node]
    rw [List.map_map]
    have h : cs.map (updateBranches epsilon ∘ updateBranches epsilon) =
        cs.map (updateBranches epsilon) :=
      List.map_congr_left fun c hc => ih c hc
    rw [h]

theorem comUpdate_idem {dim : ℕ} (t : PTree dim) :
    comUpdate (comUpdate t) = comUpdate t := by
  induction t using PTree.myInduction with
  | hleaf es a => rw [comUpdate_leaf, comUpdate_leaf]; rfl
  | hnode cs a ih =>
    rw [comUpdate_node, comUpdate_node]
    rw [List.map_map]
    have h : cs.map (comUpdate ∘ comUpdate) = cs.map comUpdate :=
      List.map_congr_left fun c hc => ih c hc
    rw [h]
    rfl

/-! ## FMM evaluator (part_003: `computeAcceleration`,
`tree_traversal_c2c`, `sink_traversal_c2p`)

The FMM code is written for `gdimension = 3` (explicit loops to 3,
`double jacobi[9]`, `double hessian[27]`); the model fixes `dim = 3`.
`flecsi::distance` (a Euclidean norm, hence an irrational square root
in general) is taken as an explicit function parameter `dist`; every
theorem below holds for an arbitrary `dist`, and concrete instances
pick configurations in which the Euclidean distances are rational. -/

/-- `operator<` on `point_t` as defined in part_003:84-94: it returns
`false` iff some component satisfies `p[i] > q[i]`; i.e. it is the
*componentwise non-strict* order `∀ i, p i ≤ q i`. -/
def cppLt (p q : Pt 3) : Prop := ∀ i : Fin 3, p i ≤ q i

instance (p q : Pt 3) : Decidable (cppLt p q) := by
  unfold cppLt; infer_instance

/-- `operator>` on `point_t` (part_003:96-106): `∀ i, p i ≥ q i`. -/
def cppGt (p q : Pt 3) : Prop := ∀ i : Fin 3, q i ≤ p i

instance (p q : Pt 3) : Decidable (cppGt p q) := by
  unfold cppGt; infer_instance

/-- `operator==` on `point_t` (part_003:36-46): componentwise equality. -/
def cppEq (p q : Pt 3) : Prop := ∀ i : Fin 3, p i = q i

instance (p q : Pt 3) : Decidable (cppEq p q) := by
  unfold cppEq; infer_instance

/-- The chained comparison `i==j==k` of `computeAcceleration`
(part_003:481).  In C++, `i==j` yields a `bool` that is promoted to the
`int` `1` or `0` and then compared with `k`; so the condition is
`((i==j) ? 1 : 0) == k`. -/
def chainedEq3 (i j k : Fin 3) : Prop :=
  (if (i : ℕ) = (j : ℕ) then 1 else 0) = (k : ℕ)

instance (i j k : Fin 3) : Decidable (chainedEq3 i j k) := by
  unfold chainedEq3; infer_instance

/-- The factor applied to the Kronecker-delta part of the Hessian in
`computeAcceleration` (part_003:481-485): `1.0` when the chained
comparison `i==j==k` holds, `3.0` otherwise. -/
def hessFirstFactor (i j k : Fin 3) : ℚ :=
  if chainedEq3 i j k then 1 else 3

/-- The factor that an actual triple-equality test
`(i == j) && (j == k)` would select — the selection the specification
says was intended. -/
def hessFirstFactorTriple (i j k : Fin 3) : ℚ :=
  if i = j ∧ j = k then 1 else 3

/-- The per-sink FMM accumulator state: `fc` (force), `jacobi[9]` and
`hessian[27]`, the flat arrays being viewed as
`jacobi[i*3+j] = jacobi i j` and `hessian[i*9+j*3+k] = hessian i j k`. -/
structure FmmSt : Type where
  fc : Pt 3
  jacobi : Fin 3 → Fin 3 → ℚ
  hessian : Fin 3 → Fin 3 → Fin 3 → ℚ
deriving DecidableEq

/-- The Hessian entry written by `computeAcceleration`
(part_003:463-491).  Note two faithful oddities of the source:
the accumulator is zeroed inside the loop (`hessian[position] = 0.0`),
so the entry is *overwritten*, not accumulated; and the Kronecker part
is scaled by `hessFirstFactor` (the chained comparison). -/
def hessEntry (dist : Pt 3 → Pt 3 → ℚ) (sinkPos srcPos : Pt 3) (m : ℚ)
    (i j k : Fin 3) : ℚ :=
  let r := dist sinkPos srcPos
  let dp : Pt 3 := fun d => sinkPos d - srcPos d
  let hessiancoeff : ℚ := -3 * m / (r * r * r * r * r)
  let firstterm : ℚ :=
    (if (i : ℕ) = (j : ℕ) then hessiancoeff * dp k else 0) +
    (if (j : ℕ) = (k : ℕ) then hessiancoeff * dp i else 0) +
    (if (k : ℕ) = (i : ℕ) then hessiancoeff * dp j else 0)
  firstterm * hessFirstFactor i j k +
    hessiancoeff * (-5) / (r * r) * dp i * dp j * dp k

/-- `computeAcceleration` (part_003:435-492): accumulate the monopole
contribution of a source (position `srcPos`, mass `m`) into the sink
accumulators.  `fc` and `jacobi` are `+=`-accumulated; the `hessian`
entries are overwritten (see `hessEntry`). -/
def computeAcceleration (dist : Pt 3 → Pt 3 → ℚ) (sinkPos srcPos : Pt 3)
    (m : ℚ) (st : FmmSt) : FmmSt :=
  let r := dist sinkPos srcPos
  let dp : Pt 3 := fun d => sinkPos d - srcPos d
  let jacobicoeff : ℚ := -m / (r * r * r)
  { fc := fun i => st.fc i + (-m / (r * r * r)) * dp i
    jacobi := fun i j => st.jacobi i j +
      (if (i : ℕ) = (j : ℕ) then jacobicoeff * (1 - 3 * dp i * dp j / (r * r))
       else jacobicoeff * (-3 * dp i * dp j / (r * r)))
    hessian := fun i j k => hessEntry dist sinkPos srcPos m i j k }

/-- The multipole acceptance criterion `MAC` (part_003:506-515):
`distance(source.bmin, source.bmax) / distance(sink.pos, source.pos)
 < macangle`. -/
def macTest (dist : Pt 3 → Pt 3 → ℚ) (sink source : Agg 3)
    (macangle : ℚ) : Prop :=
  dist source.bmin source.bmax / dist sink.coords source.coords < macangle

instance (dist : Pt 3 → Pt 3 → ℚ) (sink source : Agg 3) (θ : ℚ) :
    Decidable (macTest dist sink source θ) := by
  unfold macTest; infer_instance

/-- One leaf-particle step of `tree_traversal_c2c` (part_003:554-565):
skip non-local particles and particles inside the sink's closed box
(`pos < sink.bmax && pos > sink.bmin`, with the componentwise
non-strict operators); otherwise accumulate the particle as a point
mass. -/
def c2cLeafStep (dist : Pt 3 → Pt 3 → ℚ) (sink : Agg 3) (st : FmmSt)
    (bi : Ent 3) : FmmSt :=
  if bi.loc.isLocal then
    if cppLt bi.pos sink.bmax ∧ cppGt bi.pos sink.bmin then st
    else computeAcceleration dist sink.coords bi.pos bi.mass st
  else st

/-- `tree_traversal_c2c` (part_003:519-573): the cell-to-cell FMM
traversal of the local tree for a given sink. -/
def c2cRun (dist : Pt 3 → Pt 3 → ℚ) (θ : ℚ) (sink : Agg 3) :
    PTree 3 → FmmSt → FmmSt
  | .leaf es a, st =>
    if a.mass = 0 then st
    else if cppEq sink.bmin a.bmin ∧ cppEq sink.bmax a.bmax then st
    else if cppLt sink.bmin a.bmin ∧ cppGt sink.bmax a.bmax then st
    else if macTest dist sink a θ then
      computeAcceleration dist sink.coords a.coords a.mass st
    else es.foldl (c2cLeafStep dist sink) st
  | .node cs a, st =>
    if a.mass = 0 then st
    else if cppEq sink.bmin a.bmin ∧ cppEq sink.bmax a.bmax then st
    else if cppLt sink.bmin a.bmin ∧ cppGt sink.bmax a.bmax then st
    else if macTest dist sink a θ then
      computeAcceleration dist sink.coords a.coords a.mass st
    else cs.attach.foldl (fun st c => c2cRun dist θ sink c.1 st) st
termination_by t => sizeOf t
decreasing_by
  have := List.sizeOf_lt_of_mem c.2
  simp only [PTree.node.sizeOf_spec]
  omega

/-- Skip condition of `tree_traversal_c2c` (part_003:530-546): zero
mass, same box as the sink, or box contained in the sink's box (the
source's `operator<` / `operator>` being componentwise non-strict). -/
def c2cSkip (sink a : Agg 3) : Prop :=
  a.mass = 0 ∨
  (cppEq sink.bmin a.bmin ∧ cppEq sink.bmax a.bmax) ∨
  (cppLt sink.bmin a.bmin ∧ cppGt sink.bmax a.bmax)

instance (sink a : Agg 3) : Decidable (c2cSkip sink a) := by
  unfold c2cSkip; infer_instance

/-- The list of point-mass interactions `(position, mass)` that the
cell-to-cell traversal accumulates into a sink, stated the way the
specification describes the traversal: skip on `c2cSkip`; take the
branch monopole when the MAC accepts; otherwise take the local
particles outside the sink's box at a leaf, and recurse into the
children at an interior branch. -/
def c2cContribs (dist : Pt 3 → Pt 3 → ℚ) (θ : ℚ) (sink : Agg 3) :
    PTree 3 → List (Pt 3 × ℚ)
  | .leaf es a =>
    if c2cSkip sink a then []
    else if macTest dist sink a θ then [(a.coords, a.mass)]
    else (es.filter fun bi =>
        bi.loc.isLocal ∧ ¬(cppLt bi.pos sink.bmax ∧ cppGt bi.pos sink.bmin)).map
      fun bi => (bi.pos, bi.mass)
  | .node cs a =>
    if c2cSkip sink a then []
    else if macTest dist sink a θ then [(a.coords, a.mass)]
    else (cs.attach.map fun c => c2cContribs dist θ sink c.1).flatten
termination_by t => sizeOf t
decreasing_by
  have := List.sizeOf_lt_of_mem c.2
  simp only [PTree.node.sizeOf_spec]
  omega

/-- The monopole force increment of the claim:
`F = −m·(p_s − p_b)/r³`. -/
def monoF (dist : Pt 3 → Pt 3 → ℚ) (sinkPos : Pt 3) (pm : Pt 3 × ℚ)
    (i : Fin 3) : ℚ :=
  let r := dist sinkPos pm.1;
  -pm.2 / (r * r * r) * (sinkPos i - pm.1 i)

/-- The monopole Jacobian increment of the claim:
`J_ii = F_coef·(1 − 3·Δ_i²/r²)`, `J_ij = F_coef·(−3·Δ_i·Δ_j/r²)`
with `F_coef = −m/r³` and `Δ = p_s − p_b`. -/
def monoJ (dist : Pt 3 → Pt 3 → ℚ) (sinkPos : Pt 3) (pm : Pt 3 × ℚ)
    (i j : Fin 3) : ℚ :=
  let r := dist sinkPos pm.1
  let fcoef := -pm.2 / (r * r * r)
  if (i : ℕ) = (j : ℕ) then
    fcoef * (1 - 3 * (sinkPos i - pm.1 i) * (sinkPos j - pm.1 j) / (r * r))
  else fcoef * (-3 * (sinkPos i - pm.1 i) * (sinkPos j - pm.1 j) / (r * r))

/-- Accumulating one interaction = one `computeAcceleration` call. -/
def applyContrib (dist : Pt 3 → Pt 3 → ℚ) (sinkPos : Pt 3) (st : FmmSt)
    (pm : Pt 3 × ℚ) : FmmSt :=
  computeAcceleration dist sinkPos pm.1 pm.2 st

theorem c2cLeafStep_as_contrib (dist : Pt 3 → Pt 3 → ℚ) (sink : Agg 3)
    (es : List (Ent 3)) (st : FmmSt) :
    es.foldl (c2cLeafStep dist sink) st =
      ((es.filter fun bi =>
          bi.loc.isLocal ∧
            ¬(cppLt bi.pos sink.bmax ∧ cppGt bi.pos sink.bmin)).map
        fun bi => (bi.pos, bi.mass)).foldl (applyContrib dist sink.coords) st := by
  induction es generalizing st with
  | nil => rfl
  | cons bi es ih =>
    simp only [List.foldl_cons, List.filter_cons]
    by_cases h1 : bi.loc.isLocal
    · by_cases h2 : cppLt bi.pos sink.bmax ∧ cppGt bi.pos sink.bmin
      · have : c2cLeafStep dist sink st bi = st := by
          simp [c2cLeafStep, h1, h2]
        rw [this]
        have : (decide (bi.loc.isLocal = true ∧
            ¬(cppLt bi.pos sink.bmax ∧ cppGt bi.pos sink.bmin))) = false := by
          simp [h1, h2]
        rw [this]
        exact ih st
      · have he : c2cLeafStep dist sink st bi =
            computeAcceleration dist sink.coords bi.pos bi.mass st := by
          simp [c2cLeafStep, h1, h2]
        rw [he]
        have : (decide (bi.loc.isLocal = true ∧
            ¬(cppLt bi.pos sink.bmax ∧ cppGt bi.pos sink.bmin))) = true := by
          simp [h1, h2]
        rw [this]
        simp only [List.map_cons, List.foldl_cons]
        exact ih _
    · have : c2cLeafStep dist sink st bi = st := by
        simp [c2cLeafStep, h1]
      rw [this]
      have : (decide (bi.loc.isLocal = true ∧
          ¬(cppLt bi.pos sink.bmax ∧ cppGt bi.pos sink.bmin))) = false := by
        simp [h1]
      rw [this]
      exact ih st

theorem c2cRun_fold_children (dist : Pt 3 → Pt 3 → ℚ) (θ : ℚ)
    (sink : Agg 3) (cs : List (PTree 3))
    (ih : ∀ c ∈ cs, ∀ st, c2cRun dist θ sink c st =
      (c2cContribs dist θ sink c).foldl (applyContrib dist sink.coords) st) :
    ∀ st, cs.foldl (fun st c => c2cRun dist θ sink c st) st =
      ((cs.map (c2cContribs dist θ sink)).flatten).foldl
        (applyContrib dist sink.coords) st := by
  induction cs with
  | nil => intro st; rfl
  | cons c cs ihcs =>
    intro st
    simp only [List.foldl_cons, List.map_cons, List.flatten_cons,
      List.foldl_append]
    rw [ih c (List.mem_cons_self c cs)]
    exact ihcs (fun x hx => ih x (List.mem_cons_of_mem c hx)) _

theorem c2cRun_eq_foldl_contribs (dist : Pt 3 → Pt 3 → ℚ) (θ : ℚ)
    (sink : Agg 3) (t : PTree 3) :
    ∀ st, c2cRun dist θ sink t st =
      (c2cContribs dist θ sink t).foldl (applyContrib dist sink.coords) st := by
  induction t using PTree.myInduction with
  | hleaf es a =>
    intro st
    rw [c2cRun, c2cContribs]
    by_cases h0 : a.mass = 0
    · simp [c2cSkip, h0]
    · by_cases h1 : cppEq sink.bmin a.bmin ∧ cppEq sink.bmax a.bmax
      · simp [c2cSkip, h0, h1]
      · by_cases h2 : cppLt sink.bmin a.bmin ∧ cppGt sink.bmax a.bmax
        · simp [c2cSkip, h0, h1, h2]
        · have hs : ¬ c2cSkip sink a := by
            simp [c2cSkip, h0, h1, h2]
          by_cases h3 : macTest dist sink a θ
          · simp [h0, h1, h2, h3, hs, applyContrib]
          · rw [if_neg h0, if_neg h1, if_neg h2, if_neg h3, if_neg hs,
              if_neg h3]
            exact c2cLeafStep_as_contrib dist sink es st
  | hnode cs a ih =>
    intro st
    rw [c2cRun, c2cContribs]
    by_cases h0 : a.mass = 0
    · simp [c2cSkip, h0]
    · by_cases h1 : cppEq sink.bmin a.bmin ∧ cppEq sink.bmax a.bmax
      · simp [c2cSkip, h0, h1]
      · by_cases h2 : cppLt sink.bmin a.bmin ∧ cppGt sink.bmax a.bmax
        · simp [c2cSkip, h0, h1, h2]
        · have hs : ¬ c2cSkip sink a := by
            simp [c2cSkip, h0, h1, h2]
          by_cases h3 : macTest dist sink a θ
          · simp [h0, h1, h2, h3, hs, applyContrib]
          · rw [if_neg h0, if_neg h1, if_neg h2, if_neg h3, if_neg hs,
              if_neg h3]
            simp only [List.attach_map_coe]
            exact (List.foldl_attach cs (fun s c => c2cRun dist θ sink c s)
              st).trans (c2cRun_fold_children dist θ sink cs ih st)

theorem applyContrib_fc (dist : Pt 3 → Pt 3 → ℚ) (sinkPos : Pt 3)
    (pm : Pt 3 × ℚ) (st : FmmSt) (i : Fin 3) :
    (applyContrib dist sinkPos st pm).fc i =
      st.fc i + monoF dist sinkPos pm i := rfl

theorem applyContrib_jacobi (dist : Pt 3 → Pt 3 → ℚ) (sinkPos : Pt 3)
    (pm : Pt 3 × ℚ) (st : FmmSt) (i j : Fin 3) :
    (applyContrib dist sinkPos st pm).jacobi i j =
      st.jacobi i j + monoJ dist sinkPos pm i j := rfl

theorem foldl_applyContrib_fc (dist : Pt 3 → Pt 3 → ℚ) (sinkPos : Pt 3)
    (l : List (Pt 3 × ℚ)) :
    ∀ (st : FmmSt) (i : Fin 3),
      (l.foldl (applyContrib dist sinkPos) st).fc i =
        st.fc i + (l.map fun pm => monoF dist sinkPos pm i).sum := by
  induction l with
  | nil => intro st i; simp
  | cons pm l ih =>
    intro st i
    simp only [List.foldl_cons, List.map_cons, List.sum_cons]
    rw [ih, applyContrib_fc]
    ring

theorem foldl_applyContrib_jacobi (dist : Pt 3 → Pt 3 → ℚ) (sinkPos : Pt 3)
    (l : List (Pt 3 × ℚ)) :
    ∀ (st : FmmSt) (i j : Fin 3),
      (l.foldl (applyContrib dist sinkPos) st).jacobi i j =
        st.jacobi i j + (l.map fun pm => monoJ dist sinkPos pm i j).sum := by
  induction l with
  | nil => intro st i j; simp
  | cons pm l ih =>
    intro st i j
    simp only [List.foldl_cons, List.map_cons, List.sum_cons]
    rw [ih, applyContrib_jacobi]
    ring

/-- **C5 (amended).**  The cell-to-cell FMM traversal
`tree_traversal_c2c` skips a source branch `B` if `B.mass == 0`, if
`B`'s box equals the sink's box, or if `B`'s box is *contained* in the
sink's box in the sense of the source's componentwise non-strict
`point_t` comparisons (`operator<` of part_003:84-94 is `≤` in every
component — containment, not strict insideness); otherwise, if the MAC
accepts, it accumulates into the running state exactly the claim's
monopole force `F += −m·Δ/r³` and Jacobian `J_ii += (−m/r³)(1−3Δ_i²/r²)`,
`J_ij += (−m/r³)(−3Δ_iΔ_j/r²)` for the interaction list `c2cContribs`,
which takes each LOCAL leaf particle outside the sink's closed box as a
point mass and recurses into all children of a non-leaf. -/
theorem C5_c2c_traversal (dist : Pt 3 → Pt 3 → ℚ) (θ : ℚ) (sink : Agg 3)
    (t : PTree 3) (st : FmmSt) :
    (t.agg.mass = 0 → c2cRun dist θ sink t st = st) ∧
    ((cppEq sink.bmin t.agg.bmin ∧ cppEq sink.bmax t.agg.bmax) →
      c2cRun dist θ sink t st = st) ∧
    ((cppLt sink.bmin t.agg.bmin ∧ cppGt sink.bmax t.agg.bmax) →
      c2cRun dist θ sink t st = st) ∧
    (∀ i, (c2cRun dist θ sink t st).fc i =
      st.fc i + ((c2cContribs dist θ sink t).map
        fun pm => monoF dist sink.coords pm i).sum) ∧
    (∀ i j, (c2cRun dist θ sink t st).jacobi i j =
      st.jacobi i j + ((c2cContribs dist θ sink t).map
        fun pm => monoJ dist sink.coords pm i j).sum) := by
  refine ⟨?_, ?_, ?_, ?_, ?_⟩
  · intro h0
    cases t with
    | leaf es a => simp only [PTree.agg] at h0; rw [c2cRun, if_pos h0]
    | node cs a => simp only [PTree.agg] at h0; rw [c2cRun, if_pos h0]
  · intro h1
    cases t with
    | leaf es a =>
      simp only [PTree.agg] at h1
      rw [c2cRun]
      by_cases h0 : a.mass = 0
      · rw [if_pos h0]
      · rw [if_neg h0, if_pos h1]
    | node cs a =>
      simp only [PTree.agg] at h1
      rw [c2cRun]
      by_cases h0 : a.mass = 0
      · rw [if_pos h0]
      · rw [if_neg h0, if_pos h1]
  · intro h2
    cases t with
    | leaf es a =>
      simp only [PTree.agg] at h2
      rw [c2cRun]
      by_cases h0 : a.mass = 0
      · rw [if_pos h0]
      · by_cases h1 : cppEq sink.bmin a.bmin ∧ cppEq sink.bmax a.bmax
        · rw [if_neg h0, if_pos h1]
        · rw [if_neg h0, if_neg h1, if_pos h2]
    | node cs a =>
      simp only [PTree.agg] at h2
      rw [c2cRun]
      by_cases h0 : a.mass = 0
      · rw [if_pos h0]
      · by_cases h1 : cppEq sink.bmin a.bmin ∧ cppEq sink.bmax a.bmax
        · rw [if_neg h0, if_pos h1]
        · rw [if_neg h0, if_neg h1, if_pos h2]
  · intro i
    rw [c2cRun_eq_foldl_contribs]
    exact foldl_applyContrib_fc dist sink.coords _ st i
  · intro i j
    rw [c2cRun_eq_foldl_contribs]
    exact foldl_applyContrib_jacobi dist sink.coords _ st i j

/-- A concrete distance function used to instantiate the abstract
`dist` parameter in counterexamples and witnesses: the L1 norm.  It
coincides with the Euclidean `flecsi::distance` whenever the two
points differ in at most one coordinate, and the concrete
configurations below use only such pairs. -/
def distL1 (p q : Pt 3) : ℚ := ∑ i : Fin 3, |p i - q i|

/-- Zero point. -/
def ptZero : Pt 3 := fun _ => 0

/-- Zero accumulator state (`fc = {0,0,0}`, `jacobi[9] = {}`,
`hessian[27] = 0`, as initialized by `tree_traversal_grav`). -/
def st0 : FmmSt where
  fc := ptZero
  jacobi := fun _ _ => 0
  hessian := fun _ _ _ => 0

/-- Sink data of the C5 counterexample: center-of-mass at the origin,
box `[-2,2]^3`. -/
def cexSinkC5 : Agg 3 where
  mass := 1
  coords := ptZero
  bmin := fun _ => -2
  bmax := fun _ => 2
  subEnt := 1

/-- Source branch of the C5 counterexample: mass `1`, center of mass
`(1,0,0)`, box from `(-2,-2,-2)` to `(1,-2,-2)`.  The box is contained
in the sink's box but shares its lower corner plane, so it is *not
strictly* inside it. -/
def cexSrcAggC5 : Agg 3 where
  mass := 1
  coords := fun i => if i = 0 then 1 else 0
  bmin := fun _ => -2
  bmax := fun i => if i = 0 then 1 else -2
  subEnt := 1

def cexSrcTreeC5 : PTree 3 := .leaf [] cexSrcAggC5

/-- **C5, counterexample.**  The claim says the traversal skips a
source `B` only if `B.mass == 0`, `B`'s box equals the sink's box, or
`B` is *strictly inside* the sink's box, and that otherwise, when the
MAC accepts, it accumulates a monopole contribution.  Here is a source
branch with nonzero mass whose box is neither equal to nor strictly
inside the sink's box, for which the MAC accepts with a nonzero force
increment — yet `tree_traversal_c2c` returns the accumulators
unchanged, because the `operator<`/`operator>` used by the "inside"
test (part_003:84-106) are componentwise *non-strict*, so the test is
containment rather than strict insideness. -/
theorem C5_counterexample :
    c2cRun distL1 1000 cexSinkC5 cexSrcTreeC5 st0 = st0 ∧
    cexSrcAggC5.mass ≠ 0 ∧
    ¬(cppEq cexSinkC5.bmin cexSrcAggC5.bmin ∧
      cppEq cexSinkC5.bmax cexSrcAggC5.bmax) ∧
    ¬(∀ i : Fin 3, cexSinkC5.bmin i < cexSrcAggC5.bmin i ∧
      cexSrcAggC5.bmax i < cexSinkC5.bmax i) ∧
    macTest distL1 cexSinkC5 cexSrcAggC5 1000 ∧
    monoF distL1 cexSinkC5.coords (cexSrcAggC5.coords, cexSrcAggC5.mass) 0 ≠ 0 := by
  refine ⟨?_, by decide, by decide, by decide, ?_, ?_⟩
  case refine_2 =>
    simp [macTest, distL1, cexSinkC5, cexSrcAggC5, ptZero,
      Fin.sum_univ_three]
    all_goals norm_num
  case refine_3 =>
    simp [monoF, distL1, cexSinkC5, cexSrcAggC5, ptZero,
      Fin.sum_univ_three]
  show c2cRun distL1 1000 cexSinkC5 (.leaf [] cexSrcAggC5) st0 = st0
  rw [c2cRun]
  rw [if_neg (by decide), if_neg (by decide), if_pos (by decide)]

/-- Witness data: a source branch with zero mass and the sink's own
box, for the skip clauses of `C5_c2c_traversal`. -/
def wAggC5 : Agg 3 where
  mass := 0
  coords := ptZero
  bmin := fun _ => -2
  bmax := fun _ => 2
  subEnt := 0

theorem C5_c2c_traversal_witness :
    c2cRun distL1 1000 cexSinkC5 (PTree.leaf [] wAggC5) st0 = st0 ∧
    (∀ i, (c2cRun distL1 1000 cexSinkC5 cexSrcTreeC5 st0).fc i =
      st0.fc i + ((c2cContribs distL1 1000 cexSinkC5 cexSrcTreeC5).map
        fun pm => monoF distL1 cexSinkC5.coords pm i).sum) :=
  ⟨(C5_c2c_traversal distL1 1000 cexSinkC5 (PTree.leaf [] wAggC5) st0).1 rfl,
   (C5_c2c_traversal distL1 1000 cexSinkC5 cexSrcTreeC5 st0).2.2.2.1⟩

/-- **C7.**  The Hessian branch of `computeAcceleration` guarded by the
chained comparison `if (i == j == k)` evaluates `((i == j) == k)`
(`chainedEq3`), and this differs from the triple equality
`(i == j) && (j == k)` on concrete index triples in `{0,1,2}^3` — in
both directions — so the factor `hessFirstFactor` applied to the
Kronecker-delta term of the Hessian differs from the factor
`hessFirstFactorTriple` that triple equality would select. -/
theorem C7_chained_comparison_bug :
    (∃ i j k : Fin 3, chainedEq3 i j k ∧ ¬(i = j ∧ j = k)) ∧
    (∃ i j k : Fin 3, (i = j ∧ j = k) ∧ ¬ chainedEq3 i j k) ∧
    (∃ i j k : Fin 3, hessFirstFactor i j k ≠ hessFirstFactorTriple i j k) := by
  refine ⟨⟨0, 0, 1, by decide⟩, ⟨0, 0, 0, by decide⟩, ⟨0, 0, 1, by decide⟩⟩

/-! ### Push-down phase `sink_traversal_c2p` (part_003:575-638) -/

/-- The gravitational value computed for one particle by
`sink_traversal_c2p` (part_003:598-626), modelled literally: the
Jacobian term is the full double loop `grav[i] += jacobi[i*3+j]*Δ[j]`,
but the `tmpMatrix`/`tmpVector` loops *reset their accumulator to zero
inside the innermost loop* (`tmpMatrix[i*3+j] = 0.0;` sits inside the
`k` loop, `tmpVector[i] = 0.0;` inside the `j` loop), which the
`foldl`s below reproduce. -/
def c2pGrav (sinkPos : Pt 3) (fc : Pt 3) (jacobi : Fin 3 → Fin 3 → ℚ)
    (hessian : Fin 3 → Fin 3 → Fin 3 → ℚ) (bipos : Pt 3) : Pt 3 :=
  let dp : Pt 3 := fun d => bipos d - sinkPos d
  let grav1 : Pt 3 := fun i => fc i + ∑ j : Fin 3, jacobi i j * dp j
  let tmpMatrix : Fin 3 → Fin 3 → ℚ := fun i j =>
    (List.finRange 3).foldl (fun _ k => 0 + dp k * hessian i k j) 0
  let tmpVector : Fin 3 → ℚ := fun i =>
    (List.finRange 3).foldl (fun _ j => 0 + tmpMatrix i j * dp j) 0
  fun i => grav1 i + 1 / 2 * tmpVector i

/-- `sink_traversal_c2p` (part_003:575-638): recurse through the
sink's subtree (skipping branches with `mass <= 0`) and, at each leaf,
assign every LOCAL particle the gravitational value `c2pGrav`; the
result is the list of `(particle, assigned value)` pairs in traversal
order. -/
def c2pRun (sinkPos : Pt 3) (fc : Pt 3) (jacobi : Fin 3 → Fin 3 → ℚ)
    (hessian : Fin 3 → Fin 3 → Fin 3 → ℚ) : PTree 3 → List (Ent 3 × Pt 3)
  | .leaf es a =>
    if a.mass ≤ 0 then []
    else es.filterMap fun bi =>
      if bi.loc.isLocal then
        some (bi, c2pGrav sinkPos fc jacobi hessian bi.pos)
      else none
  | .node cs a =>
    if a.mass ≤ 0 then []
    else (cs.attach.map fun c => c2pRun sinkPos fc jacobi hessian c.1).flatten
termination_by t => sizeOf t
decreasing_by
  have := List.sizeOf_lt_of_mem c.2
  simp only [PTree.node.sizeOf_spec]
  omega

/-- The value the claim (and §4.6 Step 4 of the specification) says the
push-down should assign: `g = F + J·Δ + ½·Δᵀ·H·Δ`, with the Jacobian
term summed over `j` and the Hessian term `½·Σ_{j,k} Δ_k·H[i][j][k]·Δ_j`. -/
def c2pSpecGrav (sinkPos : Pt 3) (fc : Pt 3) (jacobi : Fin 3 → Fin 3 → ℚ)
    (hessian : Fin 3 → Fin 3 → Fin 3 → ℚ) (bipos : Pt 3) : Pt 3 :=
  let dp : Pt 3 := fun d => bipos d - sinkPos d
  fun i => fc i + (∑ j : Fin 3, jacobi i j * dp j) +
    1 / 2 * ∑ j : Fin 3, ∑ k : Fin 3, dp k * hessian i j k * dp j

/-- Failing input for C6: sink at the origin, a single LOCAL particle
at `(1,0,0)`, Hessian with `H[i][0][0] = 2` and all other entries 0. -/
def cexPosC6 : Pt 3 := fun i => if i = 0 then 1 else 0

def cexBodyC6 : Ent 3 where
  pos := cexPosC6
  mass := 1
  h := 0
  loc := .LOCAL
  ident := 0

def cexHessC6 : Fin 3 → Fin 3 → Fin 3 → ℚ :=
  fun _ j k => if j = 0 ∧ k = 0 then 2 else 0

def cexAggC6 : Agg 3 where
  mass := 1
  coords := ptZero
  bmin := ptZero
  bmax := ptZero
  subEnt := 1

def cexTreeC6 : PTree 3 := .leaf [cexBodyC6] cexAggC6

/-- **C6.**  The push-down phase does *not* assign
`g = F + J·Δ + ½·Δᵀ·H·Δ`: on the failing input (`Δ = (1,0,0)`,
`H[i][0][0] = 2`, everything else zero) the claimed value is `(1,1,1)`
(indeed `½·Δ_0·H[i][0][0]·Δ_0 = 1` for every `i`), but
`sink_traversal_c2p` assigns `(0,0,0)`, because its `tmpMatrix` and
`tmpVector` accumulators are zeroed inside their inner loops so only
the `k = 2` / `j = 2` terms of the quadratic form survive. -/
theorem C6_hessian_pushdown_bug :
    c2pRun ptZero ptZero (fun _ _ => 0) cexHessC6 cexTreeC6 =
      [(cexBodyC6, fun _ => 0)] ∧
    c2pSpecGrav ptZero ptZero (fun _ _ => 0) cexHessC6 cexPosC6 =
      (fun _ => 1) ∧
    (fun (_ : Fin 3) => (0 : ℚ)) ≠ (fun _ => 1) := by
  refine ⟨?_, ?_, by decide⟩
  case refine_2 =>
    funext i
    simp [c2pSpecGrav, ptZero, cexHessC6, cexPosC6, Fin.sum_univ_three]
  have hg : c2pGrav ptZero ptZero (fun _ _ => 0) cexHessC6 cexPosC6 =
      (fun _ => 0) := by
    funext i
    simp [c2pGrav, ptZero, cexHessC6, cexPosC6, Fin.sum_univ_three,
      List.finRange, List.foldl]
  show c2pRun ptZero ptZero (fun _ _ => 0) cexHessC6 (.leaf [cexBodyC6] cexAggC6) =
    [(cexBodyC6, fun _ => 0)]
  rw [c2pRun]
  rw [if_neg (by decide)]
  have hloc : cexBodyC6.loc.isLocal = true := rfl
  simp only [List.filterMap_cons, List.filterMap_nil, hloc, if_true]
  rw [show cexBodyC6.pos = cexPosC6 from rfl, hg]

/-! ## Kernel-sum evaluator: `apply_sub_cells` / `sub_cells_inter` /
`force_calc` / `apply_sub_entity` (tree_topology.h:745-880)

The traversals use the geometric predicates of tree_geometry.h, which
is not among the source files; those predicates are modelled from the
specification (§4.5: "Box/sphere intersection tests are standard
separating-axis checks on axis-aligned boxes", and `within` selects
points within the given radius; radius comparisons are on squared
distances, see `dist2`). -/

/-- Modelled from the spec: `tree_geometry<...>::within(a, b, r)` —
point `b` lies within distance `r` of point `a` (tree_geometry.h is
not under src/). -/
def within {dim : ℕ} (a b : Pt dim) (r : ℚ) : Prop := dist2 a b ≤ r ^ 2

instance {dim : ℕ} (a b : Pt dim) (r : ℚ) : Decidable (within a b r) := by
  unfold within; infer_instance

/-- Modelled from the spec: `tree_geometry::intersects_box_box
(amin, amax, bmin, bmax)` — two axis-aligned boxes overlap iff their
intervals overlap in every dimension (separating-axis check;
tree_geometry.h is not under src/). -/
def intersectsBoxBox {dim : ℕ} (amin amax bmin bmax : Pt dim) : Prop :=
  ∀ d, amin d ≤ bmax d ∧ bmin d ≤ amax d

instance {dim : ℕ} (amin amax bmin bmax : Pt dim) :
    Decidable (intersectsBoxBox amin amax bmin bmax) := by
  unfold intersectsBoxBox; infer_instance

/-- `apply_sub_entity` (tree_topology.h:859-880): collect, over the
interaction list, every entity within `radius` of `ent`, and hand the
pair to the user callable.  The model returns the neighbor list. -/
def applySubEntity {dim : ℕ} (e : Ent dim) (inter : List (PTree dim))
    (r : ℚ) : List (Ent dim) :=
  (inter.map fun b => b.leafEnts.filter fun nb => within e.pos nb.pos r).flatten

/-- Node count of a tree (the termination measure of the explicit-stack
loops below). -/
def ptSize {dim : ℕ} : PTree dim → ℕ
  | .leaf _ _ => 1
  | .node cs _ => 1 + (cs.attach.map fun c => ptSize c.1).sum
termination_by t => sizeOf t
decreasing_by
  have := List.sizeOf_lt_of_mem c.2
  simp only [PTree.node.sizeOf_spec]
  omega

theorem ptSize_node {dim : ℕ} (cs : List (PTree dim)) (a : Agg dim) :
    ptSize (PTree.node cs a) = 1 + (cs.map fun t => ptSize t).sum := by
  rw [ptSize]
  simp [List.attach_map_coe]

theorem ptSize_pos {dim : ℕ} (t : PTree dim) : 0 < ptSize t := by
  cases t with
  | leaf es a => rw [ptSize]; omega
  | node cs a => rw [ptSize_node]; omega

/-- Total node count of a traversal stack. -/
def stkMeasure {dim : ℕ} (l : List (PTree dim)) : ℕ :=
  (l.map fun t => ptSize t).sum

theorem sizes_filter_le {dim : ℕ} (p : PTree dim → Bool)
    (cs : List (PTree dim)) :
    ((cs.filter p).map fun t => ptSize t).sum ≤
      (cs.map fun t => ptSize t).sum := by
  induction cs with
  | nil => simp
  | cons c cs ih =>
    rw [List.filter_cons]
    by_cases h : p c
    · simp only [h, if_true, List.map_cons, List.sum_cons]
      omega
    · simp only [h, Bool.false_eq_true, if_false, List.map_cons,
        List.sum_cons]
      omega

theorem stkMeasure_push {dim : ℕ} (p : PTree dim → Bool)
    (cs : List (PTree dim)) (a : Agg dim) (rest : List (PTree dim)) :
    stkMeasure ((cs.filter p).reverse ++ rest) <
      stkMeasure (PTree.node cs a :: rest) := by
  simp only [stkMeasure, List.map_append, List.sum_append, List.map_reverse,
    List.sum_reverse, List.map_cons, List.sum_cons, ptSize_node]
  have h1 := sizes_filter_le p cs
  omega

/-- `sub_cells_inter` (tree_topology.h:790-818): the stack traversal
from the tree root that collects every leaf whose bounding box
intersects the work cell's box `[bmin, bmax]` (descending only into
children with `sub_entities() > 0`).  The `MAC` parameter of the
source is unused by its body and omitted. -/
def subCellsInterStk {dim : ℕ} (bmin bmax : Pt dim) :
    List (PTree dim) → List (PTree dim)
  | [] => []
  | .leaf es a :: rest => .leaf es a :: subCellsInterStk bmin bmax rest
  | .node cs _ :: rest =>
    subCellsInterStk bmin bmax
      ((cs.filter fun br => decide (0 < br.agg.subEnt ∧
        intersectsBoxBox bmin bmax br.agg.bmin br.agg.bmax)).reverse ++ rest)
termination_by l => stkMeasure l
decreasing_by
  · simp only [stkMeasure, List.map_cons, List.sum_cons]
    have := ptSize_pos (PTree.leaf es a : PTree dim)
    omega
  · apply stkMeasure_push

/-- `force_calc` (tree_topology.h:824-853): walk the work cell's
subtree (descending only into children with `getMass() > 0`); at each
leaf, for each `is_local()` entity, produce the `apply_sub_entity`
call `(entity, neighbor list)`. -/
def forceCalcStk {dim : ℕ} (inter : List (PTree dim)) (r : ℚ) :
    List (PTree dim) → List (Ent dim × List (Ent dim))
  | [] => []
  | .leaf es _ :: rest =>
    ((es.filter fun e => e.loc.isLocal).map
      fun e => (e, applySubEntity e inter r)) ++ forceCalcStk inter r rest
  | .node cs _ :: rest =>
    forceCalcStk inter r
      ((cs.filter fun br => decide (0 < br.agg.mass)).reverse ++ rest)
termination_by l => stkMeasure l
decreasing_by
  · simp only [stkMeasure, List.map_cons, List.sum_cons]
    have := ptSize_pos (PTree.leaf es a : PTree dim)
    omega
  · apply stkMeasure_push

/-- The calls of one work cell `c`: compute the interaction list by
`sub_cells_inter` from the tree root, then run `force_calc` on `c`. -/
def workCell {dim : ℕ} (root : PTree dim) (r : ℚ) (c : PTree dim) :
    List (Ent dim × List (Ent dim)) :=
  forceCalcStk (subCellsInterStk c.agg.bmin c.agg.bmax [root]) r [c]

/-- `apply_sub_cells` (tree_topology.h:745-788): the work-splitting
stack traversal.  A branch is a work cell if it is a leaf with
entities, or has fewer than `ncritical` (but more than zero)
sub-entities; otherwise its children with `sub_entities() > 0` are
pushed.  A leaf that reaches the push branch makes the source
dereference `child(c, i) == nullptr`; the model returns `none` there.
The result is the list of `(particle, neighbor list)` pairs handed to
the user callable `ef` (OpenMP task order is irrelevant to the
claims, which are stated up to permutation). -/
def applySubCellsStk {dim : ℕ} (root : PTree dim) (r : ℚ) (ncrit : ℤ) :
    List (PTree dim) → Option (List (Ent dim × List (Ent dim)))
  | [] => some []
  | c :: rest =>
    if c.isLeaf = true ∧ 0 < c.agg.subEnt then
      (applySubCellsStk root r ncrit rest).map
        fun calls => workCell root r c ++ calls
    else if (c.agg.subEnt : ℤ) < ncrit ∧ 0 < c.agg.subEnt then
      (applySubCellsStk root r ncrit rest).map
        fun calls => workCell root r c ++ calls
    else
      match c with
      | .leaf _ _ => none
      | .node cs _ =>
        applySubCellsStk root r ncrit
          ((cs.filter fun br => decide (0 < br.agg.subEnt)).reverse ++ rest)
termination_by l => stkMeasure l
decreasing_by
  · simp only [stkMeasure, List.map_cons, List.sum_cons]
    have := ptSize_pos c
    omega
  · simp only [stkMeasure, List.map_cons, List.sum_cons]
    have := ptSize_pos c
    omega
  · apply stkMeasure_push

theorem entsOf_leaf {dim : ℕ} (es : List (Ent dim)) (a : Agg dim) :
    PTree.entsOf (.leaf es a) = es := by
  rw [PTree.entsOf]

theorem entsOf_node {dim : ℕ} (cs : List (PTree dim)) (a : Agg dim) :
    PTree.entsOf (.node cs a) = (cs.map PTree.entsOf).flatten := by
  rw [PTree.entsOf]
  simp [List.attach_map_coe]

theorem mem_entsOf_node {dim : ℕ} {cs : List (PTree dim)} {a : Agg dim}
    {c : PTree dim} {e : Ent dim} (hc : c ∈ cs) (he : e ∈ c.entsOf) :
    e ∈ (PTree.node cs a).entsOf := by
  rw [entsOf_node, List.mem_flatten]
  exact ⟨c.entsOf, List.mem_map_of_mem _ hc, he⟩

/-- All particles of the subtree have positive mass. -/
def MassPos {dim : ℕ} (t : PTree dim) : Prop := ∀ e ∈ t.entsOf, 0 < e.mass

theorem MassPos.child {dim : ℕ} {cs : List (PTree dim)} {a : Agg dim}
    (h : MassPos (.node cs a)) {c : PTree dim} (hc : c ∈ cs) : MassPos c :=
  fun e he => h e (mem_entsOf_node hc he)

/-- The branch aggregates are those `update_branches epsilon` computes:
correct sub-entity counts and masses, leaf boxes covering each
particle's position ± `epsilon`, and each interior box covering the
boxes of its positive-mass children. -/
inductive Aggregated {dim : ℕ} (epsilon : ℚ) : PTree dim → Prop
  | leaf (es : List (Ent dim)) (a : Agg dim)
      (hsub : a.subEnt = es.length)
      (hmass : a.mass = (es.map Ent.mass).sum)
      (hbox : ∀ e ∈ es, ∀ d, a.bmin d ≤ e.pos d - epsilon ∧
        e.pos d + epsilon ≤ a.bmax d) :
      Aggregated epsilon (.leaf es a)
  | node (cs : List (PTree dim)) (a : Agg dim)
      (hc : ∀ c ∈ cs, Aggregated epsilon c)
      (hsub : a.subEnt = (cs.map fun c => c.agg.subEnt).sum)
      (hmass : a.mass = (cs.map fun c => c.agg.mass).sum)
      (hbox : ∀ c ∈ cs, 0 < c.agg.mass → ∀ d,
        a.bmin d ≤ c.agg.bmin d ∧ c.agg.bmax d ≤ a.bmax d) :
      Aggregated epsilon (.node cs a)

theorem Aggregated.children {dim : ℕ} {epsilon : ℚ} {cs : List (PTree dim)}
    {a : Agg dim} (h : Aggregated epsilon (.node cs a)) :
    ∀ c ∈ cs, Aggregated epsilon c := by
  cases h with
  | node cs a hc hsub hmass hbox => exact hc

theorem Aggregated.mass_eq {dim : ℕ} {epsilon : ℚ} {t : PTree dim}
    (h : Aggregated epsilon t) :
    t.agg.mass = (t.entsOf.map Ent.mass).sum := by
  induction h with
  | leaf es a hsub hmass hbox =>
    simpa [PTree.agg, entsOf_leaf] using hmass
  | node cs a hc hsub hmass hbox ih =>
    simp only [PTree.agg, entsOf_node, List.map_flatten, List.sum_flatten,
      List.map_map]
    rw [hmass]
    congr 1
    exact List.map_congr_left fun c hcm => ih c hcm

theorem Aggregated.subEnt_eq {dim : ℕ} {epsilon : ℚ} {t : PTree dim}
    (h : Aggregated epsilon t) :
    t.agg.subEnt = t.entsOf.length := by
  induction h with
  | leaf es a hsub hmass hbox =>
    simpa [PTree.agg, entsOf_leaf] using hsub
  | node cs a hc hsub hmass hbox ih =>
    simp only [PTree.agg, entsOf_node, List.length_flatten, List.map_map]
    rw [hsub]
    congr 1
    exact List.map_congr_left fun c hcm => ih c hcm

theorem Aggregated.mass_pos {dim : ℕ} {epsilon : ℚ} {t : PTree dim}
    (h : Aggregated epsilon t) (hmp : MassPos t) (hne : t.entsOf ≠ []) :
    0 < t.agg.mass := by
  rw [h.mass_eq]
  apply List.sum_pos
  · intro x hx
    obtain ⟨e, he, rfl⟩ := List.mem_map.mp hx
    exact hmp e he
  · simpa using hne

theorem Aggregated.box_cover {dim : ℕ} {epsilon : ℚ} {t : PTree dim}
    (h : Aggregated epsilon t) (hmp : MassPos t) :
    ∀ e ∈ t.entsOf, ∀ d, t.agg.bmin d ≤ e.pos d - epsilon ∧
      e.pos d + epsilon ≤ t.agg.bmax d := by
  induction h with
  | leaf es a hsub hmass hbox =>
    intro e he d
    exact hbox e (by simpa [entsOf_leaf] using he) d
  | node cs a hc hsub hmass hbox ih =>
    intro e he d
    rw [entsOf_node, List.mem_flatten] at he
    obtain ⟨l, hl, hel⟩ := he
    obtain ⟨c, hcm, rfl⟩ := List.mem_map.mp hl
    have hmpc : MassPos c := MassPos.child hmp hcm
    have hcpos : 0 < c.agg.mass :=
      (hc c hcm).mass_pos hmpc (List.ne_nil_of_mem hel)
    have h1 := hbox c hcm hcpos d
    have h2 := ih c hcm hmpc e hel d
    constructor
    · simp only [PTree.agg]
      exact le_trans h1.1 h2.1
    · simp only [PTree.agg]
      exact le_trans h2.2 h1.2

/-! List helpers for the traversal lemmas. -/

theorem subperm_append_mono {α : Type _} {l1 l2 r1 r2 : List α}
    (h1 : l1.Subperm l2) (h2 : r1.Subperm r2) :
    (l1 ++ r1).Subperm (l2 ++ r2) := by
  obtain ⟨u, hup, hus⟩ := h1
  obtain ⟨v, hvp, hvs⟩ := h2
  exact ⟨u ++ v, hup.append hvp, hus.append hvs⟩

theorem flatten_sublist {α : Type _} {l1 l2 : List (List α)}
    (h : l1.Sublist l2) : l1.flatten.Sublist l2.flatten := by
  induction h with
  | slnil => exact List.Sublist.refl _
  | cons a h ih =>
    simp only [List.flatten_cons]
    exact ih.trans (List.sublist_append_right a _)
  | cons₂ a h ih =>
    simp only [List.flatten_cons]
    exact List.Sublist.append (List.Sublist.refl a) ih

theorem flatten_map_sublist_of_pointwise {α β : Type _} {l : List α}
    {f g : α → List β} (h : ∀ x ∈ l, (f x).Sublist (g x)) :
    (l.map f).flatten.Sublist (l.map g).flatten := by
  induction l with
  | nil => exact List.Sublist.refl _
  | cons a l ih =>
    simp only [List.map_cons, List.flatten_cons]
    exact List.Sublist.append (h a (List.mem_cons_self a l))
      (ih fun x hx => h x (List.mem_cons_of_mem a hx))

theorem nodup_of_subperm {α : Type _} {l1 l2 : List α}
    (h : l1.Subperm l2) (hnd : l2.Nodup) : l1.Nodup := by
  obtain ⟨u, hup, hus⟩ := h
  exact hup.nodup (hus.nodup hnd)

theorem flatten_map_filter_dropped_nil {α β : Type _} (l : List α)
    (p : α → Bool) (f : α → List β)
    (h : ∀ x ∈ l, p x = false → f x = []) :
    ((l.filter p).map f).flatten = (l.map f).flatten := by
  induction l with
  | nil => rfl
  | cons a l ih =>
    rw [List.filter_cons]
    by_cases hp : p a
    · simp only [hp, if_true, List.map_cons, List.flatten_cons]
      rw [ih fun x hx => h x (List.mem_cons_of_mem a hx)]
    · simp only [hp]
      simp only [Bool.false_eq_true, if_false, List.map_cons,
        List.flatten_cons]
      rw [h a (List.mem_cons_self a l) (Bool.not_eq_true _ ▸ hp),
        List.nil_append]
      exact ih fun x hx => h x (List.mem_cons_of_mem a hx)

theorem flatten_map_reverse_perm {α β : Type _} (l : List α)
    (f : α → List β) :
    ((l.reverse.map f).flatten).Perm ((l.map f).flatten) :=
  List.Perm.flatten (List.Perm.map f (List.reverse_perm l))

theorem ubLeaf_foldl_n {dim : ℕ} (epsilon : ℚ) (es : List (Ent dim)) :
    ∀ s, (es.foldl (ubLeafStep epsilon) s).n = s.n + es.length := by
  induction es with
  | nil => intro s; simp
  | cons e es ih =>
    intro s
    simp only [List.foldl_cons, List.length_cons]
    rw [ih]
    simp only [ubLeafStep]
    omega

theorem ubLeaf_foldl_mass {dim : ℕ} (epsilon : ℚ) (es : List (Ent dim)) :
    ∀ s, (es.foldl (ubLeafStep epsilon) s).mass =
      s.mass + (es.map Ent.mass).sum := by
  induction es with
  | nil => intro s; simp
  | cons e es ih =>
    intro s
    simp only [List.foldl_cons, List.map_cons, List.sum_cons]
    rw [ih]
    simp only [ubLeafStep]
    ring

theorem ubLeaf_foldl_bmin_mono {dim : ℕ} (epsilon : ℚ) (es : List (Ent dim)) :
    ∀ s d, (es.foldl (ubLeafStep epsilon) s).bmin d ≤ s.bmin d := by
  induction es with
  | nil => intro s d; exact le_refl _
  | cons e es ih =>
    intro s d
    simp only [List.foldl_cons]
    exact le_trans (ih _ d) (min_le_left _ _)

theorem ubLeaf_foldl_bmax_mono {dim : ℕ} (epsilon : ℚ) (es : List (Ent dim)) :
    ∀ s d, s.bmax d ≤ (es.foldl (ubLeafStep epsilon) s).bmax d := by
  induction es with
  | nil => intro s d; exact le_refl _
  | cons e es ih =>
    intro s d
    simp only [List.foldl_cons]
    exact le_trans (le_max_left _ _) (ih (ubLeafStep epsilon s e) d)

theorem ubLeaf_foldl_box {dim : ℕ} (epsilon : ℚ) (es : List (Ent dim)) :
    ∀ s, ∀ e ∈ es, ∀ d,
      (es.foldl (ubLeafStep epsilon) s).bmin d ≤ e.pos d - epsilon ∧
      e.pos d + epsilon ≤ (es.foldl (ubLeafStep epsilon) s).bmax d := by
  induction es with
  | nil => intro s e he; exact absurd he (List.not_mem_nil e)
  | cons a es ih =>
    intro s e he d
    rcases List.mem_cons.mp he with rfl | he2
    · constructor
      · simp only [List.foldl_cons]
        exact le_trans (ubLeaf_foldl_bmin_mono epsilon es _ d)
          (min_le_right _ _)
      · simp only [List.foldl_cons]
        exact le_trans (le_max_right _ _)
          (ubLeaf_foldl_bmax_mono epsilon es _ d)
    · simp only [List.foldl_cons]
      exact ih _ e he2 d

theorem ubNode_foldl_n {dim : ℕ} (l : List (PTree dim)) :
    ∀ s, (l.foldl (fun s c => ubNodeStep s c.agg) s).n =
      s.n + (l.map fun c => c.agg.subEnt).sum := by
  induction l with
  | nil => intro s; simp
  | cons c l ih =>
    intro s
    simp only [List.foldl_cons, List.map_cons, List.sum_cons]
    rw [ih]
    simp only [ubNodeStep]
    omega

theorem ubNode_foldl_mass {dim : ℕ} (l : List (PTree dim)) :
    ∀ s, (l.foldl (fun s c => ubNodeStep s c.agg) s).mass =
      s.mass + (l.map fun c => c.agg.mass).sum := by
  induction l with
  | nil => intro s; simp
  | cons c l ih =>
    intro s
    simp only [List.foldl_cons, List.map_cons, List.sum_cons]
    rw [ih]
    simp only [ubNodeStep]
    ring

theorem ubNodeStep_bmin_le {dim : ℕ} (s : AggAcc dim) (a : Agg dim)
    (d : Fin dim) : (ubNodeStep s a).bmin d ≤ s.bmin d := by
  simp only [ubNodeStep]
  by_cases h : 0 < a.mass
  · simp only [h, if_true]
    exact min_le_left _ _
  · simp only [h, if_false]
    exact le_refl _

theorem ubNodeStep_bmax_ge {dim : ℕ} (s : AggAcc dim) (a : Agg dim)
    (d : Fin dim) : s.bmax d ≤ (ubNodeStep s a).bmax d := by
  simp only [ubNodeStep]
  by_cases h : 0 < a.mass
  · simp only [h, if_true]
    exact le_max_left _ _
  · simp only [h, if_false]
    exact le_refl _

theorem ubNode_foldl_bmin_mono {dim : ℕ} (l : List (PTree dim)) :
    ∀ s d, (l.foldl (fun s c => ubNodeStep s c.agg) s).bmin d ≤ s.bmin d := by
  induction l with
  | nil => intro s d; exact le_refl _
  | cons c l ih =>
    intro s d
    simp only [List.foldl_cons]
    exact le_trans (ih _ d) (ubNodeStep_bmin_le s c.agg d)

theorem ubNode_foldl_bmax_mono {dim : ℕ} (l : List (PTree dim)) :
    ∀ s d, s.bmax d ≤ (l.foldl (fun s c => ubNodeStep s c.agg) s).bmax d := by
  induction l with
  | nil => intro s d; exact le_refl _
  | cons c l ih =>
    intro s d
    simp only [List.foldl_cons]
    exact le_trans (ubNodeStep_bmax_ge s c.agg d) (ih _ d)

theorem ubNode_foldl_box {dim : ℕ} (l : List (PTree dim)) :
    ∀ s, ∀ c ∈ l, 0 < c.agg.mass → ∀ d,
      (l.foldl (fun s c => ubNodeStep s c.agg) s).bmin d ≤ c.agg.bmin d ∧
      c.agg.bmax d ≤ (l.foldl (fun s c => ubNodeStep s c.agg) s).bmax d := by
  induction l with
  | nil => intro s c hc; exact absurd hc (List.not_mem_nil c)
  | cons a l ih =>
    intro s c hc hpos d
    rcases List.mem_cons.mp hc with rfl | hc2
    · constructor
      · simp only [List.foldl_cons]
        refine le_trans (ubNode_foldl_bmin_mono l _ d) ?_
        simp only [ubNodeStep, hpos, if_true]
        exact min_le_right _ _
      · simp only [List.foldl_cons]
        refine le_trans ?_ (ubNode_foldl_bmax_mono l _ d)
        simp only [ubNodeStep, hpos, if_true]
        exact le_max_right _ _
    · simp only [List.foldl_cons]
      exact ih _ c hc2 hpos d

/-- `update_branches` establishes the `Aggregated` invariant. -/
theorem updateBranches_aggregated {dim : ℕ} (epsilon : ℚ) :
    ∀ t : PTree dim, Aggregated epsilon (updateBranches epsilon t) := by
  intro t
  induction t using PTree.myInduction with
  | hleaf es a =>
    rw [updateBranches_leaf]
    refine Aggregated.leaf es _ ?_ ?_ ?_
    · show (es.foldl (ubLeafStep epsilon) (aggInit dim)).n = es.length
      rw [ubLeaf_foldl_n]
      simp [aggInit]
    · show (es.foldl (ubLeafStep epsilon) (aggInit dim)).mass = _
      rw [ubLeaf_foldl_mass]
      simp [aggInit]
    · intro e he d
      exact ubLeaf_foldl_box epsilon es (aggInit dim) e he d
  | hnode cs a ih =>
    rw [updateBranches_node]
    refine Aggregated.node _ _ ?_ ?_ ?_ ?_
    · intro c hcm
      obtain ⟨c0, hc0, rfl⟩ := List.mem_map.mp hcm
      exact ih c0 hc0
    · show (List.foldl _ (aggInit dim) _).n = _
      rw [ubNode_foldl_n]
      simp [aggInit]
    · show (List.foldl _ (aggInit dim) _).mass = _
      rw [ubNode_foldl_mass]
      simp [aggInit]
    · intro c hcm hpos d
      exact ubNode_foldl_box _ (aggInit dim) c hcm hpos d

theorem updateBranches_entsOf {dim : ℕ} (epsilon : ℚ) :
    ∀ t : PTree dim, (updateBranches epsilon t).entsOf = t.entsOf := by
  intro t
  induction t using PTree.myInduction with
  | hleaf es a => rw [updateBranches_leaf, entsOf_leaf, entsOf_leaf]
  | hnode cs a ih =>
    rw [updateBranches_node, entsOf_node, entsOf_node, List.map_map]
    congr 1
    exact List.map_congr_left fun c hc => ih c hc

theorem updateBranches_isLeaf {dim : ℕ} (epsilon : ℚ) (t : PTree dim) :
    (updateBranches epsilon t).isLeaf = t.isLeaf := by
  cases t with
  | leaf es a => rw [updateBranches_leaf]; rfl
  | node cs a => rw [updateBranches_node]; rfl

theorem stkMeasure_cons {dim : ℕ} (t : PTree dim) (rest : List (PTree dim)) :
    stkMeasure (t :: rest) = ptSize t + stkMeasure rest := by
  simp [stkMeasure]

/-- A coordinate-wise consequence of `within`: each coordinate of `b`
lies within `r` of the same coordinate of `a`. -/
theorem within_coord_bounds {dim : ℕ} {p q : Pt dim} {r : ℚ}
    (h : within p q r) (hr : 0 ≤ r) (d : Fin dim) :
    p d - r ≤ q d ∧ q d ≤ p d + r := by
  have hd : (p d - q d) ^ 2 ≤ r ^ 2 := by
    refine le_trans ?_ h
    exact Finset.single_le_sum (f := fun i => (p i - q i) ^ 2)
      (fun i _ => sq_nonneg _) (Finset.mem_univ d)
  constructor <;> nlinarith [sq_nonneg (p d - q d), sq_nonneg r]

/-- Completeness of `sub_cells_inter`: if some tree on the stack
contains a particle `q` whose position lies in the query box, then the
collected interaction list contains a leaf holding `q` — provided the
stack's aggregates are those of `update_branches` with a nonnegative
halo and all particle masses are positive. -/
theorem sci_complete {dim : ℕ} (epsilon : ℚ) (heps : 0 ≤ epsilon)
    (bmin bmax : Pt dim) :
    ∀ (n : ℕ) (stk : List (PTree dim)), stkMeasure stk = n →
      (∀ t ∈ stk, Aggregated epsilon t) → (∀ t ∈ stk, MassPos t) →
      ∀ (q : Ent dim) (t0 : PTree dim), t0 ∈ stk → q ∈ t0.entsOf →
      (∀ d, bmin d ≤ q.pos d ∧ q.pos d ≤ bmax d) →
      ∃ lf ∈ subCellsInterStk bmin bmax stk, q ∈ lf.leafEnts := by
  intro n
  induction n using Nat.strong_induction_on with
  | _ n ihn =>
  intro stk hn hagg hmp q t0 ht0 hq hbox
  cases stk with
  | nil => exact absurd ht0 (List.not_mem_nil t0)
  | cons t rest =>
  cases t with
  | leaf es a =>
    rw [subCellsInterStk]
    rcases List.mem_cons.mp ht0 with rfl | hrest
    · exact ⟨.leaf es a, List.mem_cons_self _ _, by
        simpa [PTree.leafEnts, entsOf_leaf] using hq⟩
    · have hlt : stkMeasure rest < n := by
        rw [← hn, stkMeasure_cons]
        have := ptSize_pos (.leaf es a : PTree dim)
        omega
      obtain ⟨lf, hlf, hql⟩ := ihn (stkMeasure rest) hlt rest rfl
        (fun x hx => hagg x (List.mem_cons_of_mem _ hx))
        (fun x hx => hmp x (List.mem_cons_of_mem _ hx)) q t0 hrest hq hbox
      exact ⟨lf, List.mem_cons_of_mem _ hlf, hql⟩
  | node cs a =>
    have haggh : Aggregated epsilon (.node cs a) :=
      hagg _ (List.mem_cons_self _ _)
    have hmph : MassPos (.node cs a) := hmp _ (List.mem_cons_self _ _)
    set pred := fun br : PTree dim => decide (0 < br.agg.subEnt ∧
      intersectsBoxBox bmin bmax br.agg.bmin br.agg.bmax) with hpred
    have hnewagg : ∀ x ∈ (cs.filter pred).reverse ++ rest,
        Aggregated epsilon x := by
      intro x hx
      rcases List.mem_append.mp hx with hx | hx
      · exact haggh.children x (List.mem_of_mem_filter (List.mem_reverse.mp hx))
      · exact hagg x (List.mem_cons_of_mem _ hx)
    have hnewmp : ∀ x ∈ (cs.filter pred).reverse ++ rest, MassPos x := by
      intro x hx
      rcases List.mem_append.mp hx with hx | hx
      · exact MassPos.child hmph (List.mem_of_mem_filter (List.mem_reverse.mp hx))
      · exact hmp x (List.mem_cons_of_mem _ hx)
    have hlt : stkMeasure ((cs.filter pred).reverse ++ rest) < n := by
      rw [← hn]
      exact stkMeasure_push pred cs a rest
    rw [subCellsInterStk]
    rcases List.mem_cons.mp ht0 with rfl | hrest
    · rw [entsOf_node, List.mem_flatten] at hq
      obtain ⟨l, hl, hql⟩ := hq
      obtain ⟨c, hcm, rfl⟩ := List.mem_map.mp hl
      have hcagg : Aggregated epsilon c := haggh.children c hcm
      have hcmp : MassPos c := MassPos.child hmph hcm
      have hcsub : 0 < c.agg.subEnt := by
        rw [hcagg.subEnt_eq]
        exact List.length_pos.mpr (List.ne_nil_of_mem hql)
      have hcover := hcagg.box_cover hcmp q hql
      have hinter : intersectsBoxBox bmin bmax c.agg.bmin c.agg.bmax := by
        intro d
        have h1 := (hcover d).1
        have h2 := (hcover d).2
        have h3 := (hbox d).1
        have h4 := (hbox d).2
        constructor <;> linarith
      have hcf : c ∈ (cs.filter pred).reverse ++ rest := by
        apply List.mem_append_left
        rw [List.mem_reverse]
        rw [List.mem_filter]
        exact ⟨hcm, by rw [hpred]; exact decide_eq_true ⟨hcsub, hinter⟩⟩
      exact ihn _ hlt _ rfl hnewagg hnewmp q c hcf hql hbox
    · have ht0new : t0 ∈ (cs.filter pred).reverse ++ rest :=
        List.mem_append_right _ hrest
      exact ihn _ hlt _ rfl hnewagg hnewmp q t0 ht0new hq hbox

/-- The interaction list never reaches a particle twice: the
concatenation of the leaf particle lists of `sub_cells_inter`'s result
is a sub-permutation of the particles of the stack. -/
theorem sci_subperm {dim : ℕ} (bmin bmax : Pt dim) :
    ∀ (n : ℕ) (stk : List (PTree dim)), stkMeasure stk = n →
      (((subCellsInterStk bmin bmax stk).map PTree.leafEnts).flatten).Subperm
        ((stk.map PTree.entsOf).flatten) := by
  intro n
  induction n using Nat.strong_induction_on with
  | _ n ihn =>
  intro stk hn
  cases stk with
  | nil =>
    rw [subCellsInterStk]
    exact List.Subperm.refl _
  | cons t rest =>
  cases t with
  | leaf es a =>
    rw [subCellsInterStk]
    simp only [List.map_cons, List.flatten_cons]
    have hlt : stkMeasure rest < n := by
      rw [← hn, stkMeasure_cons]
      have := ptSize_pos (.leaf es a : PTree dim)
      omega
    have hrec := ihn (stkMeasure rest) hlt rest rfl
    have heq : (PTree.leaf es a : PTree dim).leafEnts =
        (PTree.leaf es a : PTree dim).entsOf := by
      rw [entsOf_leaf]; rfl
    rw [heq]
    exact subperm_append_mono (List.Subperm.refl _) hrec
  | node cs a =>
    set pred := fun br : PTree dim => decide (0 < br.agg.subEnt ∧
      intersectsBoxBox bmin bmax br.agg.bmin br.agg.bmax) with hpred
    have hlt : stkMeasure ((cs.filter pred).reverse ++ rest) < n := by
      rw [← hn]
      exact stkMeasure_push pred cs a rest
    rw [subCellsInterStk]
    refine (ihn _ hlt _ rfl).trans ?_
    rw [List.map_append, List.flatten_append, List.map_cons,
      List.flatten_cons]
    refine subperm_append_mono ?_ (List.Subperm.refl _)
    refine (flatten_map_reverse_perm (cs.filter pred) PTree.entsOf).subperm.trans ?_
    rw [entsOf_node]
    exact (flatten_sublist (List.Sublist.map PTree.entsOf
      (List.filter_sublist cs))).subperm

/-- The `ef` sources of `force_calc` are exactly the LOCAL particles
of the stack, up to permutation, provided the stack's aggregates are
correct and all particle masses are positive (so that the
`getMass() > 0` descent filter drops only empty branches). -/
theorem fc_sources {dim : ℕ} (epsilon : ℚ) (inter : List (PTree dim)) (r : ℚ) :
    ∀ (n : ℕ) (stk : List (PTree dim)), stkMeasure stk = n →
      (∀ t ∈ stk, Aggregated epsilon t) → (∀ t ∈ stk, MassPos t) →
      ((forceCalcStk inter r stk).map Prod.fst).Perm
        ((stk.map fun t => t.entsOf.filter fun e => e.loc.isLocal).flatten) := by
  intro n
  induction n using Nat.strong_induction_on with
  | _ n ihn =>
  intro stk hn hagg hmp
  cases stk with
  | nil =>
    rw [forceCalcStk]
    exact List.Perm.refl _
  | cons t rest =>
  cases t with
  | leaf es a =>
    rw [forceCalcStk]
    have hlt : stkMeasure rest < n := by
      rw [← hn, stkMeasure_cons]
      have := ptSize_pos (.leaf es a : PTree dim)
      omega
    have hrec := ihn (stkMeasure rest) hlt rest rfl
      (fun x hx => hagg x (List.mem_cons_of_mem _ hx))
      (fun x hx => hmp x (List.mem_cons_of_mem _ hx))
    simp only [List.map_append, List.map_map, List.map_cons,
      List.flatten_cons, entsOf_leaf]
    have hhead : ((es.filter fun e => e.loc.isLocal).map
        (Prod.fst ∘ fun e => (e, applySubEntity e inter r))) =
        es.filter fun e => e.loc.isLocal := by
      rw [show (Prod.fst ∘ fun e : Ent dim =>
        (e, applySubEntity e inter r)) = id from rfl, List.map_id]
    rw [hhead]
    exact List.Perm.append_left _ hrec
  | node cs a =>
    have haggh : Aggregated epsilon (.node cs a) :=
      hagg _ (List.mem_cons_self _ _)
    have hmph : MassPos (.node cs a) := hmp _ (List.mem_cons_self _ _)
    set pred := fun br : PTree dim => decide (0 < br.agg.mass) with hpred
    have hnewagg : ∀ x ∈ (cs.filter pred).reverse ++ rest,
        Aggregated epsilon x := by
      intro x hx
      rcases List.mem_append.mp hx with hx | hx
      · exact haggh.children x (List.mem_of_mem_filter (List.mem_reverse.mp hx))
      · exact hagg x (List.mem_cons_of_mem _ hx)
    have hnewmp : ∀ x ∈ (cs.filter pred).reverse ++ rest, MassPos x := by
      intro x hx
      rcases List.mem_append.mp hx with hx | hx
      · exact MassPos.child hmph (List.mem_of_mem_filter (List.mem_reverse.mp hx))
      · exact hmp x (List.mem_cons_of_mem _ hx)
    have hlt : stkMeasure ((cs.filter pred).reverse ++ rest) < n := by
      rw [← hn]
      exact stkMeasure_push pred cs a rest
    rw [forceCalcStk]
    refine (ihn _ hlt _ rfl hnewagg hnewmp).trans ?_
    rw [List.map_append, List.flatten_append, List.map_cons,
      List.flatten_cons]
    refine List.Perm.append ?_ (List.Perm.refl _)
    refine (flatten_map_reverse_perm (cs.filter pred) _).trans ?_
    have hdropped : ∀ c ∈ cs, pred c = false →
        (c.entsOf.filter fun e => e.loc.isLocal) = [] := by
      intro c hcm hfalse
      have hcagg := haggh.children c hcm
      have hcmp := MassPos.child hmph hcm
      have hents : c.entsOf = [] := by
        by_contra hne
        have := hcagg.mass_pos hcmp hne
        rw [hpred] at hfalse
        simp only [decide_eq_false_iff_not] at hfalse
        exact hfalse this
      rw [hents]
      rfl
    rw [flatten_map_filter_dropped_nil cs pred _ hdropped]
    have : (PTree.node cs a).entsOf.filter (fun e => e.loc.isLocal) =
        ((cs.map fun t => t.entsOf.filter fun e => e.loc.isLocal)).flatten := by
      rw [entsOf_node, List.filter_flatten, List.map_map]
      rfl
    rw [this]

/-- Every call produced by `force_calc` is an `apply_sub_entity` call
for a LOCAL particle of the stack, with the interaction-list neighbor
selection. -/
theorem fc_calls_shape {dim : ℕ} (inter : List (PTree dim)) (r : ℚ) :
    ∀ (n : ℕ) (stk : List (PTree dim)), stkMeasure stk = n →
      ∀ call ∈ forceCalcStk inter r stk,
        (∃ t0 ∈ stk, call.1 ∈ t0.entsOf) ∧ call.1.loc.isLocal = true ∧
          call.2 = applySubEntity call.1 inter r := by
  intro n
  induction n using Nat.strong_induction_on with
  | _ n ihn =>
  intro stk hn call hcall
  cases stk with
  | nil =>
    rw [forceCalcStk] at hcall
    exact absurd hcall (List.not_mem_nil call)
  | cons t rest =>
  cases t with
  | leaf es a =>
    rw [forceCalcStk] at hcall
    have hlt : stkMeasure rest < n := by
      rw [← hn, stkMeasure_cons]
      have := ptSize_pos (.leaf es a : PTree dim)
      omega
    rcases List.mem_append.mp hcall with hcall | hcall
    · obtain ⟨e, he, rfl⟩ := List.mem_map.mp hcall
      have he2 := List.mem_filter.mp he
      exact ⟨⟨.leaf es a, List.mem_cons_self _ _, by
        rw [entsOf_leaf]; exact he2.1⟩, by simpa using he2.2, rfl⟩
    · obtain ⟨⟨t0, ht0, hmem⟩, hloc, hform⟩ :=
        ihn (stkMeasure rest) hlt rest rfl call hcall
      exact ⟨⟨t0, List.mem_cons_of_mem _ ht0, hmem⟩, hloc, hform⟩
  | node cs a =>
    rw [forceCalcStk] at hcall
    set pred := fun br : PTree dim => decide (0 < br.agg.mass) with hpred
    have hlt : stkMeasure ((cs.filter pred).reverse ++ rest) < n := by
      rw [← hn]
      exact stkMeasure_push pred cs a rest
    obtain ⟨⟨t0, ht0, hmem⟩, hloc, hform⟩ := ihn _ hlt _ rfl call hcall
    rcases List.mem_append.mp ht0 with ht0 | ht0
    · have hcm : t0 ∈ cs := List.mem_of_mem_filter (List.mem_reverse.mp ht0)
      exact ⟨⟨.node cs a, List.mem_cons_self _ _,
        mem_entsOf_node hcm hmem⟩, hloc, hform⟩
    · exact ⟨⟨t0, List.mem_cons_of_mem _ ht0, hmem⟩, hloc, hform⟩

theorem applySubCellsStk_cons {dim : ℕ} (root : PTree dim) (r : ℚ)
    (ncrit : ℤ) (c : PTree dim) (rest : List (PTree dim)) :
    applySubCellsStk root r ncrit (c :: rest) =
      if c.isLeaf = true ∧ 0 < c.agg.subEnt then
        (applySubCellsStk root r ncrit rest).map
          fun calls => workCell root r c ++ calls
      else if (c.agg.subEnt : ℤ) < ncrit ∧ 0 < c.agg.subEnt then
        (applySubCellsStk root r ncrit rest).map
          fun calls => workCell root r c ++ calls
      else
        match c with
        | .leaf _ _ => none
        | .node cs _ =>
          applySubCellsStk root r ncrit
            ((cs.filter fun br => decide (0 < br.agg.subEnt)).reverse ++ rest) := by
  cases c with
  | leaf es a => rw [applySubCellsStk]
  | node cs a => rw [applySubCellsStk]

/-- `apply_sub_cells` completes (the model returns `some`) whenever
every leaf on the stack has entities — the only crash is the
`child(c,i) == nullptr` dereference reached by an empty leaf. -/
theorem asc_isSome {dim : ℕ} (root : PTree dim) (r : ℚ) (ncrit : ℤ) :
    ∀ (n : ℕ) (stk : List (PTree dim)), stkMeasure stk = n →
      (∀ t ∈ stk, t.isLeaf = true → 0 < t.agg.subEnt) →
      ∃ calls, applySubCellsStk root r ncrit stk = some calls := by
  intro n
  induction n using Nat.strong_induction_on with
  | _ n ihn =>
  intro stk hn hstk
  cases stk with
  | nil => exact ⟨[], by rw [applySubCellsStk]⟩
  | cons c rest =>
  have hltr : stkMeasure rest < n := by
    rw [← hn, stkMeasure_cons]
    have := ptSize_pos c
    omega
  rw [applySubCellsStk_cons]
  by_cases h1 : c.isLeaf = true ∧ 0 < c.agg.subEnt
  · rw [if_pos h1]
    obtain ⟨calls, hc⟩ := ihn (stkMeasure rest) hltr rest rfl
      (fun x hx => hstk x (List.mem_cons_of_mem _ hx))
    exact ⟨workCell root r c ++ calls, by rw [hc]; rfl⟩
  · rw [if_neg h1]
    by_cases h2 : (c.agg.subEnt : ℤ) < ncrit ∧ 0 < c.agg.subEnt
    · rw [if_pos h2]
      obtain ⟨calls, hc⟩ := ihn (stkMeasure rest) hltr rest rfl
        (fun x hx => hstk x (List.mem_cons_of_mem _ hx))
      exact ⟨workCell root r c ++ calls, by rw [hc]; rfl⟩
    · rw [if_neg h2]
      cases c with
      | leaf es a =>
        exact absurd ⟨rfl, hstk _ (List.mem_cons_self _ _) rfl⟩ h1
      | node cs a =>
        set pred := fun br : PTree dim => decide (0 < br.agg.subEnt) with hpred
        have hlt : stkMeasure ((cs.filter pred).reverse ++ rest) < n := by
          rw [← hn]
          exact stkMeasure_push pred cs a rest
        refine ihn _ hlt _ rfl ?_
        intro x hx hleaf
        rcases List.mem_append.mp hx with hx | hx
        · have := (List.mem_filter.mp (List.mem_reverse.mp hx)).2
          rw [hpred] at this
          exact of_decide_eq_true this
        · exact hstk x (List.mem_cons_of_mem _ hx) hleaf

/-- The `ef` sources of `apply_sub_cells` are exactly the LOCAL
particles of the stack, up to permutation. -/
theorem asc_sources {dim : ℕ} (epsilon : ℚ) (root : PTree dim) (r : ℚ)
    (ncrit : ℤ) :
    ∀ (n : ℕ) (stk : List (PTree dim)), stkMeasure stk = n →
      (∀ t ∈ stk, Aggregated epsilon t) → (∀ t ∈ stk, MassPos t) →
      ∀ calls, applySubCellsStk root r ncrit stk = some calls →
      (calls.map Prod.fst).Perm
        ((stk.map fun t => t.entsOf.filter fun e => e.loc.isLocal).flatten) := by
  intro n
  induction n using Nat.strong_induction_on with
  | _ n ihn =>
  intro stk hn hagg hmp calls hcalls
  cases stk with
  | nil =>
    rw [applySubCellsStk] at hcalls
    cases hcalls
    exact List.Perm.refl _
  | cons c rest =>
  have hltr : stkMeasure rest < n := by
    rw [← hn, stkMeasure_cons]
    have := ptSize_pos c
    omega
  have hch : Aggregated epsilon c := hagg _ (List.mem_cons_self _ _)
  have hcm : MassPos c := hmp _ (List.mem_cons_self _ _)
  have hwork : ∀ calls, (applySubCellsStk root r ncrit rest).map
      (fun cl => workCell root r c ++ cl) = some calls →
      (calls.map Prod.fst).Perm
        (((c :: rest).map fun t =>
          t.entsOf.filter fun e => e.loc.isLocal).flatten) := by
    intro calls hcalls
    obtain ⟨calls2, hc2, rfl⟩ := Option.map_eq_some'.mp hcalls
    have hrec := ihn (stkMeasure rest) hltr rest rfl
      (fun x hx => hagg x (List.mem_cons_of_mem _ hx))
      (fun x hx => hmp x (List.mem_cons_of_mem _ hx)) calls2 hc2
    rw [List.map_append, List.map_cons, List.flatten_cons]
    refine List.Perm.append ?_ hrec
    have hfc := fc_sources epsilon
      (subCellsInterStk c.agg.bmin c.agg.bmax [root]) r (stkMeasure [c]) [c]
      rfl (by intro x hx; rw [List.mem_singleton] at hx; exact hx ▸ hch)
      (by intro x hx; rw [List.mem_singleton] at hx; exact hx ▸ hcm)
    simpa [workCell] using hfc
  rw [applySubCellsStk_cons] at hcalls
  by_cases h1 : c.isLeaf = true ∧ 0 < c.agg.subEnt
  · rw [if_pos h1] at hcalls
    exact hwork calls hcalls
  · rw [if_neg h1] at hcalls
    by_cases h2 : (c.agg.subEnt : ℤ) < ncrit ∧ 0 < c.agg.subEnt
    · rw [if_pos h2] at hcalls
      exact hwork calls hcalls
    · rw [if_neg h2] at hcalls
      cases c with
      | leaf es a => exact absurd hcalls (by simp)
      | node cs a =>
        set pred := fun br : PTree dim => decide (0 < br.agg.subEnt) with hpred
        have haggh : Aggregated epsilon (.node cs a) := hch
        have hmph : MassPos (.node cs a) := hcm
        have hlt : stkMeasure ((cs.filter pred).reverse ++ rest) < n := by
          rw [← hn]
          exact stkMeasure_push pred cs a rest
        have hnewagg : ∀ x ∈ (cs.filter pred).reverse ++ rest,
            Aggregated epsilon x := by
          intro x hx
          rcases List.mem_append.mp hx with hx | hx
          · exact haggh.children x
              (List.mem_of_mem_filter (List.mem_reverse.mp hx))
          · exact hagg x (List.mem_cons_of_mem _ hx)
        have hnewmp : ∀ x ∈ (cs.filter pred).reverse ++ rest, MassPos x := by
          intro x hx
          rcases List.mem_append.mp hx with hx | hx
          · exact MassPos.child hmph
              (List.mem_of_mem_filter (List.mem_reverse.mp hx))
          · exact hmp x (List.mem_cons_of_mem _ hx)
        refine (ihn _ hlt _ rfl hnewagg hnewmp calls hcalls).trans ?_
        rw [List.map_append, List.flatten_append, List.map_cons,
          List.flatten_cons]
        refine List.Perm.append ?_ (List.Perm.refl _)
        refine (flatten_map_reverse_perm (cs.filter pred) _).trans ?_
        have hdropped : ∀ x ∈ cs, pred x = false →
            (x.entsOf.filter fun e => e.loc.isLocal) = [] := by
          intro x hxm hfalse
          have hxagg := haggh.children x hxm
          have hents : x.entsOf = [] := by
            rw [hpred] at hfalse
            simp only [decide_eq_false_iff_not, not_lt, Nat.le_zero] at hfalse
            have := hxagg.subEnt_eq
            rw [hfalse] at this
            exact List.eq_nil_of_length_eq_zero this.symm
          rw [hents]
          rfl
        rw [flatten_map_filter_dropped_nil cs pred _ hdropped]
        have : (PTree.node cs a).entsOf.filter (fun e => e.loc.isLocal) =
            ((cs.map fun t =>
              t.entsOf.filter fun e => e.loc.isLocal)).flatten := by
          rw [entsOf_node, List.filter_flatten, List.map_map]
          rfl
        rw [this]

/-- The per-call guarantee of `apply_sub_cells`, provided the leaf
boxes carry a halo at least as large as the query radius: every call
is for a LOCAL particle, its neighbor list contains every particle of
the tree within `r` of the source, and (if the tree's particles are
pairwise distinct) contains no particle twice. -/
theorem asc_calls_good {dim : ℕ} (epsilon r : ℚ) (heps : 0 ≤ epsilon)
    (h0r : 0 ≤ r) (hre : r ≤ epsilon) (root : PTree dim)
    (hragg : Aggregated epsilon root) (hrmp : MassPos root) (ncrit : ℤ) :
    ∀ (n : ℕ) (stk : List (PTree dim)), stkMeasure stk = n →
      (∀ t ∈ stk, Aggregated epsilon t) → (∀ t ∈ stk, MassPos t) →
      ∀ calls, applySubCellsStk root r ncrit stk = some calls →
      ∀ call ∈ calls,
        call.1.loc.isLocal = true ∧
        (∀ q ∈ root.entsOf, within call.1.pos q.pos r → q ∈ call.2) ∧
        (root.entsOf.Nodup → call.2.Nodup) := by
  intro n
  induction n using Nat.strong_induction_on with
  | _ n ihn =>
  intro stk hn hagg hmp calls hcalls call hcall
  cases stk with
  | nil =>
    rw [applySubCellsStk] at hcalls
    cases hcalls
    exact absurd hcall (List.not_mem_nil call)
  | cons c rest =>
  have hltr : stkMeasure rest < n := by
    rw [← hn, stkMeasure_cons]
    have := ptSize_pos c
    omega
  have hch : Aggregated epsilon c := hagg _ (List.mem_cons_self _ _)
  have hcm : MassPos c := hmp _ (List.mem_cons_self _ _)
  have hwork : ∀ calls, (applySubCellsStk root r ncrit rest).map
      (fun cl => workCell root r c ++ cl) = some calls → call ∈ calls →
      call.1.loc.isLocal = true ∧
      (∀ q ∈ root.entsOf, within call.1.pos q.pos r → q ∈ call.2) ∧
      (root.entsOf.Nodup → call.2.Nodup) := by
    intro calls hcalls hcallm
    obtain ⟨calls2, hc2, rfl⟩ := Option.map_eq_some'.mp hcalls
    rcases List.mem_append.mp hcallm with hhead | htail
    · -- a call of this work cell
      set inter := subCellsInterStk c.agg.bmin c.agg.bmax [root] with hinter
      obtain ⟨⟨t0, ht0, hmem⟩, hloc, hform⟩ :=
        fc_calls_shape inter r (stkMeasure [c]) [c] rfl call hhead
      rw [List.mem_singleton] at ht0
      rw [ht0] at hmem
      have hcover := hch.box_cover hcm call.1 hmem
      refine ⟨hloc, ?_, ?_⟩
      · intro q hq hw
        have hboxq : ∀ d, c.agg.bmin d ≤ q.pos d ∧
            q.pos d ≤ c.agg.bmax d := by
          intro d
          have h1 := (hcover d).1
          have h2 := (hcover d).2
          have h3 := (within_coord_bounds hw h0r d).1
          have h4 := (within_coord_bounds hw h0r d).2
          constructor <;> linarith
        obtain ⟨lf, hlf, hql⟩ := sci_complete epsilon heps
          c.agg.bmin c.agg.bmax (stkMeasure [root]) [root] rfl
          (by intro x hx; rw [List.mem_singleton] at hx; exact hx ▸ hragg)
          (by intro x hx; rw [List.mem_singleton] at hx; exact hx ▸ hrmp)
          q root (List.mem_singleton_self root) hq hboxq
        rw [hform]
        unfold applySubEntity
        rw [List.mem_flatten]
        refine ⟨lf.leafEnts.filter fun nb => within call.1.pos nb.pos r,
          List.mem_map_of_mem _ hlf, ?_⟩
        rw [List.mem_filter]
        exact ⟨hql, decide_eq_true hw⟩
      · intro hnd
        rw [hform]
        have hsub1 : (applySubEntity call.1 inter r).Sublist
            ((inter.map PTree.leafEnts).flatten) := by
          unfold applySubEntity
          exact flatten_map_sublist_of_pointwise
            fun b _ => List.filter_sublist _
        have hsub2 := sci_subperm c.agg.bmin c.agg.bmax
          (stkMeasure [root]) [root] rfl
        have hsub3 : ((([root] : List (PTree dim)).map
            PTree.entsOf).flatten) = root.entsOf := by
          simp
        rw [hsub3] at hsub2
        exact nodup_of_subperm (hsub1.subperm.trans hsub2) hnd
    · -- a call of the remaining stack
      exact ihn (stkMeasure rest) hltr rest rfl
        (fun x hx => hagg x (List.mem_cons_of_mem _ hx))
        (fun x hx => hmp x (List.mem_cons_of_mem _ hx)) calls2 hc2 call htail
  rw [applySubCellsStk_cons] at hcalls
  by_cases h1 : c.isLeaf = true ∧ 0 < c.agg.subEnt
  · rw [if_pos h1] at hcalls
    exact hwork calls hcalls hcall
  · rw [if_neg h1] at hcalls
    by_cases h2 : (c.agg.subEnt : ℤ) < ncrit ∧ 0 < c.agg.subEnt
    · rw [if_pos h2] at hcalls
      exact hwork calls hcalls hcall
    · rw [if_neg h2] at hcalls
      cases c with
      | leaf es a => exact absurd hcalls (by simp)
      | node cs a =>
        set pred := fun br : PTree dim => decide (0 < br.agg.subEnt) with hpred
        have hlt : stkMeasure ((cs.filter pred).reverse ++ rest) < n := by
          rw [← hn]
          exact stkMeasure_push pred cs a rest
        have hnewagg : ∀ x ∈ (cs.filter pred).reverse ++ rest,
            Aggregated epsilon x := by
          intro x hx
          rcases List.mem_append.mp hx with hx | hx
          · exact hch.children x
              (List.mem_of_mem_filter (List.mem_reverse.mp hx))
          · exact hagg x (List.mem_cons_of_mem _ hx)
        have hnewmp : ∀ x ∈ (cs.filter pred).reverse ++ rest, MassPos x := by
          intro x hx
          rcases List.mem_append.mp hx with hx | hx
          · exact MassPos.child hcm
              (List.mem_of_mem_filter (List.mem_reverse.mp hx))
          · exact hmp x (List.mem_cons_of_mem _ hx)
        exact ihn _ hlt _ rfl hnewagg hnewmp calls hcalls call hcall

/-- **C2.**  On a tree whose aggregates were computed by
`update_branches` and whose particles all have positive mass (and
which, if a single leaf, is non-empty — an empty leaf root makes the
source dereference a null child pointer), `apply_sub_cells` invokes
the callable `ef` exactly once for every entity with `is_local()`
true, and never with a non-local entity as the source. -/
theorem C2_apply_sub_cells_each_local_once {dim : ℕ} (epsilon r : ℚ)
    (ncrit : ℤ) (t0 : PTree dim) (hmp : MassPos t0)
    (hne : t0.isLeaf = true → t0.entsOf ≠ []) :
    ∃ calls,
      applySubCellsStk (updateBranches epsilon t0) r ncrit
        [updateBranches epsilon t0] = some calls ∧
      (calls.map Prod.fst).Perm
        (t0.entsOf.filter fun e => e.loc.isLocal) ∧
      ∀ call ∈ calls, call.1.loc.isLocal = true := by
  have hagg := updateBranches_aggregated epsilon t0
  have hmp2 : MassPos (updateBranches epsilon t0) := by
    intro e he
    rw [updateBranches_entsOf] at he
    exact hmp e he
  have hstk : ∀ t ∈ [updateBranches epsilon t0], t.isLeaf = true →
      0 < t.agg.subEnt := by
    intro t ht hleaf
    rw [List.mem_singleton] at ht
    subst ht
    rw [hagg.subEnt_eq, updateBranches_entsOf]
    rw [updateBranches_isLeaf] at hleaf
    exact List.length_pos.mpr (hne hleaf)
  obtain ⟨calls, hcalls⟩ := asc_isSome (updateBranches epsilon t0) r ncrit
    (stkMeasure [updateBranches epsilon t0]) _ rfl hstk
  refine ⟨calls, hcalls, ?_, ?_⟩
  · have := asc_sources epsilon (updateBranches epsilon t0) r ncrit
      (stkMeasure [updateBranches epsilon t0]) _ rfl
      (by intro x hx; rw [List.mem_singleton] at hx; exact hx ▸ hagg)
      (by intro x hx; rw [List.mem_singleton] at hx; exact hx ▸ hmp2)
      calls hcalls
    refine this.trans ?_
    simp [updateBranches_entsOf]
  · intro call hcall
    have hperm := asc_sources epsilon (updateBranches epsilon t0) r ncrit
      (stkMeasure [updateBranches epsilon t0]) _ rfl
      (by intro x hx; rw [List.mem_singleton] at hx; exact hx ▸ hagg)
      (by intro x hx; rw [List.mem_singleton] at hx; exact hx ▸ hmp2)
      calls hcalls
    have hmem : call.1 ∈ calls.map Prod.fst := List.mem_map_of_mem _ hcall
    have := hperm.mem_iff.mp hmem
    rw [List.mem_flatten] at this
    obtain ⟨l, hl, hql⟩ := this
    rw [List.mem_map] at hl
    obtain ⟨t, _, rfl⟩ := hl
    exact (List.mem_filter.mp hql).2

/-- **C1 (amended).**  Under the hypotheses of C2 and provided the
bounding-box halo `epsilon` used by `update_branches` is at least the
query radius `r ≥ 0`, every neighbor list handed to the user callable
contains every particle of this rank's tree within distance `r` of the
source particle, and contains no particle more than once. -/
theorem C1_neighbor_lists {dim : ℕ} (epsilon r : ℚ) (h0r : 0 ≤ r)
    (hre : r ≤ epsilon) (ncrit : ℤ) (t0 : PTree dim) (hmp : MassPos t0)
    (calls : List (Ent dim × List (Ent dim)))
    (hcalls : applySubCellsStk (updateBranches epsilon t0) r ncrit
      [updateBranches epsilon t0] = some calls) :
    ∀ call ∈ calls,
      (∀ q ∈ t0.entsOf, within call.1.pos q.pos r → q ∈ call.2) ∧
      (t0.entsOf.Nodup → call.2.Nodup) := by
  have hagg := updateBranches_aggregated epsilon t0
  have hmp2 : MassPos (updateBranches epsilon t0) := by
    intro e he
    rw [updateBranches_entsOf] at he
    exact hmp e he
  intro call hcall
  have := asc_calls_good epsilon r (le_trans h0r hre) h0r hre
    (updateBranches epsilon t0) hagg hmp2 ncrit
    (stkMeasure [updateBranches epsilon t0]) _ rfl
    (by intro x hx; rw [List.mem_singleton] at hx; exact hx ▸ hagg)
    (by intro x hx; rw [List.mem_singleton] at hx; exact hx ▸ hmp2)
    calls hcalls call hcall
  rw [updateBranches_entsOf] at this
  exact ⟨this.2.1, this.2.2⟩

/-- C1 counterexample data (1-D instantiation): two LOCAL unit-mass
particles with smoothing length `h = 1` at positions `0` and `1`, each
alone in its leaf. -/
def e0C1 : Ent 1 where
  pos := fun _ => 0
  mass := 1
  h := 1
  loc := .LOCAL
  ident := 0

def e1C1 : Ent 1 where
  pos := fun _ => 1
  mass := 1
  h := 1
  loc := .LOCAL
  ident := 1

/-- Dummy pre-update aggregate record (the tree builder fills these
with `update_branches`). -/
def agg0C1 : Agg 1 where
  mass := 0
  coords := fun _ => 0
  bmin := fun _ => 0
  bmax := fun _ => 0
  subEnt := 0

def cexTreeC1 : PTree 1 :=
  .node [.leaf [e0C1] agg0C1, .leaf [e1C1] agg0C1] agg0C1

/-- The aggregates `update_branches 0` computes for `cexTreeC1`:
tight boxes (no halo). -/
def aggLC1 : Agg 1 := ⟨1, fun _ => 0, fun _ => 0, fun _ => 0, 1⟩

def aggRC1 : Agg 1 := ⟨1, fun _ => 1, fun _ => 1, fun _ => 1, 1⟩

def aggRootC1 : Agg 1 := ⟨2, fun _ => 1 / 2, fun _ => 0, fun _ => 1, 2⟩

def cexTreeC1u : PTree 1 :=
  .node [.leaf [e0C1] aggLC1, .leaf [e1C1] aggRC1] aggRootC1

theorem hupd_C1 : updateBranches 0 cexTreeC1 = cexTreeC1u := by
  rw [show cexTreeC1 =
    PTree.node [.leaf [e0C1] agg0C1, .leaf [e1C1] agg0C1] agg0C1 from rfl]
  rw [updateBranches_node]
  simp only [List.map_cons, List.map_nil]
  rw [updateBranches_leaf, updateBranches_leaf]
  simp only [List.foldl_cons, List.foldl_nil]
  have hL : aggFinish (ubLeafStep 0 (aggInit 1) e0C1) = aggLC1 := by
    simp only [aggFinish, ubLeafStep, aggInit, aggLC1, e0C1, DBLMAX,
      Agg.mk.injEq]
    refine ⟨by norm_num, ?_, ?_, ?_, by norm_num⟩ <;>
      funext d <;> norm_num [min_def, max_def]
  have hR : aggFinish (ubLeafStep 0 (aggInit 1) e1C1) = aggRC1 := by
    simp only [aggFinish, ubLeafStep, aggInit, aggRC1, e1C1, DBLMAX,
      Agg.mk.injEq]
    refine ⟨by norm_num, ?_, ?_, ?_, by norm_num⟩ <;>
      funext d <;> norm_num [min_def, max_def]
  rw [hL, hR]
  simp only [PTree.agg]
  have hRoot : aggFinish (ubNodeStep (ubNodeStep (aggInit 1) aggLC1) aggRC1) =
      aggRootC1 := by
    have h1 : ubNodeStep (aggInit 1) aggLC1 = ⟨1, fun _ => 0 + 0 * 1,
        fun _ => min DBLMAX 0, fun _ => max (-DBLMAX) 0, 1⟩ := by
      simp only [ubNodeStep, aggInit, aggLC1, AggAcc.mk.injEq]
      refine ⟨by norm_num, trivial, ?_, ?_, by norm_num⟩ <;> norm_num
    rw [h1]
    have h2 : ubNodeStep (⟨1, fun _ => 0 + 0 * 1,
        fun _ => min DBLMAX 0, fun _ => max (-DBLMAX) 0, 1⟩ : AggAcc 1) aggRC1 =
        ⟨2, fun _ => (0 + 0 * 1) + 1 * 1, fun _ => min (min DBLMAX 0) 1,
          fun _ => max (max (-DBLMAX) 0) 1, 2⟩ := by
      simp only [ubNodeStep, aggRC1, AggAcc.mk.injEq]
      refine ⟨by norm_num, trivial, ?_, ?_, by norm_num⟩ <;> norm_num
    rw [h2]
    simp only [aggFinish, aggRootC1, Agg.mk.injEq]
    refine ⟨by norm_num, ?_, ?_, ?_, by norm_num⟩ <;> funext d <;>
      norm_num [min_def, max_def, DBLMAX]
  rw [hRoot]
  rfl

/-- On the counterexample, the interaction list of the right work cell
(box `[1,1]`) contains only the right leaf: the left leaf's box `[0,0]`
does not intersect it (`epsilon = 0` leaves no halo). -/
theorem sci_cexR : subCellsInterStk (fun _ => (1:ℚ)) (fun _ => 1)
    [cexTreeC1u] = [PTree.leaf [e1C1] aggRC1] := by
  rw [show cexTreeC1u = PTree.node [PTree.leaf [e0C1] aggLC1,
    PTree.leaf [e1C1] aggRC1] aggRootC1 from rfl]
  rw [subCellsInterStk]
  show subCellsInterStk (fun _ => (1:ℚ)) (fun _ => 1)
    [PTree.leaf [e1C1] aggRC1] = _
  rw [subCellsInterStk, subCellsInterStk]

/-- Interaction list of the left work cell (box `[0,0]`): only the
left leaf. -/
theorem sci_cexL : subCellsInterStk (fun _ => (0:ℚ)) (fun _ => 0)
    [cexTreeC1u] = [PTree.leaf [e0C1] aggLC1] := by
  rw [show cexTreeC1u = PTree.node [PTree.leaf [e0C1] aggLC1,
    PTree.leaf [e1C1] aggRC1] aggRootC1 from rfl]
  rw [subCellsInterStk]
  show subCellsInterStk (fun _ => (0:ℚ)) (fun _ => 0)
    [PTree.leaf [e0C1] aggLC1] = _
  rw [subCellsInterStk, subCellsInterStk]

theorem ase_cexR : applySubEntity e1C1 [PTree.leaf [e1C1] aggRC1] 2 =
    [e1C1] := by
  have hw : within e1C1.pos e1C1.pos 2 := by
    simp [within, dist2, e1C1]
  simp [applySubEntity, PTree.leafEnts, hw]

theorem ase_cexL : applySubEntity e0C1 [PTree.leaf [e0C1] aggLC1] 2 =
    [e0C1] := by
  have hw : within e0C1.pos e0C1.pos 2 := by
    simp [within, dist2, e0C1]
  simp [applySubEntity, PTree.leafEnts, hw]

theorem wc_cexR : workCell cexTreeC1u 2 (PTree.leaf [e1C1] aggRC1) =
    [(e1C1, [e1C1])] := by
  rw [workCell]
  show forceCalcStk (subCellsInterStk (fun _ => (1:ℚ)) (fun _ => 1)
    [cexTreeC1u]) 2 [PTree.leaf [e1C1] aggRC1] = _
  rw [sci_cexR, forceCalcStk, forceCalcStk]
  have hloc : e1C1.loc.isLocal = true := rfl
  simp [hloc, ase_cexR]

theorem wc_cexL : workCell cexTreeC1u 2 (PTree.leaf [e0C1] aggLC1) =
    [(e0C1, [e0C1])] := by
  rw [workCell]
  show forceCalcStk (subCellsInterStk (fun _ => (0:ℚ)) (fun _ => 0)
    [cexTreeC1u]) 2 [PTree.leaf [e0C1] aggLC1] = _
  rw [sci_cexL, forceCalcStk, forceCalcStk]
  have hloc : e0C1.loc.isLocal = true := rfl
  simp [hloc, ase_cexL]

/-- Full evaluation of `apply_sub_cells` on the counterexample tree:
each particle's neighbor list contains only itself. -/
theorem asc_cexC1 : applySubCellsStk cexTreeC1u 2 1 [cexTreeC1u] =
    some [(e1C1, [e1C1]), (e0C1, [e0C1])] := by
  rw [applySubCellsStk_cons, if_neg (by decide), if_neg (by decide)]
  show applySubCellsStk cexTreeC1u 2 1
    [PTree.leaf [e1C1] aggRC1, PTree.leaf [e0C1] aggLC1] = _
  rw [applySubCellsStk_cons, if_pos (by decide)]
  rw [applySubCellsStk_cons, if_pos (by decide)]
  rw [show applySubCellsStk cexTreeC1u 2 1 ([] : List (PTree 1)) =
    some [] from by rw [applySubCellsStk]]
  simp only [Option.map_some']
  rw [wc_cexR, wc_cexL]
  rfl

/-- **C1, counterexample.**  With the halo the code actually passes
(`bodies_system` constructs the tree with `epsilon_ = 0.`), the claim
fails: on a two-particle tree with particles at `0` and `1` (each of
smoothing length `h = 1`, so `dist(p,q) = 1 < 2 = 2*max(h_p,h_q)`),
`apply_sub_cells` with radius `2` hands each particle a neighbor list
containing only itself — the bounding boxes are tight points, so
`sub_cells_inter` never reaches the other particle's leaf. -/
theorem C1_counterexample :
    applySubCellsStk (updateBranches 0 cexTreeC1) 2 1
        [updateBranches 0 cexTreeC1] =
      some [(e1C1, [e1C1]), (e0C1, [e0C1])] ∧
    e1C1.loc.isLocal = true ∧
    e0C1 ∈ cexTreeC1.entsOf ∧
    dist2 e1C1.pos e0C1.pos < (2 * max e1C1.h e0C1.h) ^ 2 ∧
    e0C1 ∉ [e1C1] := by
  refine ⟨?_, rfl, ?_, ?_, ?_⟩
  · rw [hupd_C1]
    exact asc_cexC1
  · rw [show cexTreeC1 = PTree.node [PTree.leaf [e0C1] agg0C1,
      PTree.leaf [e1C1] agg0C1] agg0C1 from rfl, entsOf_node]
    simp [entsOf_leaf]
  · norm_num [dist2, e0C1, e1C1, Fin.sum_univ_one]
  · intro hmem
    rw [List.mem_singleton] at hmem
    exact absurd (congrArg Ent.ident hmem) (by norm_num [e0C1, e1C1])

/-- Witness tree: a single leaf holding the one LOCAL unit-mass
particle `e0C1`. -/
def treeW : PTree 1 := .leaf [e0C1] agg0C1

theorem massPos_treeW : MassPos treeW := by
  intro e he
  rw [show treeW = PTree.leaf [e0C1] agg0C1 from rfl, entsOf_leaf,
    List.mem_singleton] at he
  subst he
  norm_num [e0C1]

theorem hupd_W : updateBranches 0 treeW = PTree.leaf [e0C1] aggLC1 := by
  rw [show treeW = PTree.leaf [e0C1] agg0C1 from rfl]
  rw [updateBranches_leaf]
  simp only [List.foldl_cons, List.foldl_nil]
  have hL : aggFinish (ubLeafStep 0 (aggInit 1) e0C1) = aggLC1 := by
    simp only [aggFinish, ubLeafStep, aggInit, aggLC1, e0C1, DBLMAX,
      Agg.mk.injEq]
    refine ⟨by norm_num, ?_, ?_, ?_, by norm_num⟩ <;>
      funext d <;> norm_num [min_def, max_def]
  rw [hL]

theorem ase_W : applySubEntity e0C1 [PTree.leaf [e0C1] aggLC1] 0 =
    [e0C1] := by
  have hw : within e0C1.pos e0C1.pos 0 := by
    simp [within, dist2, e0C1]
  simp [applySubEntity, PTree.leafEnts, hw]

theorem asc_W : applySubCellsStk (PTree.leaf [e0C1] aggLC1) 0 1
    [PTree.leaf [e0C1] aggLC1] = some [(e0C1, [e0C1])] := by
  rw [applySubCellsStk_cons, if_pos (by decide)]
  rw [show applySubCellsStk (PTree.leaf [e0C1] aggLC1) 0 1
    ([] : List (PTree 1)) = some [] from by rw [applySubCellsStk]]
  simp only [Option.map_some']
  have hwc : workCell (PTree.leaf [e0C1] aggLC1) 0
      (PTree.leaf [e0C1] aggLC1) = [(e0C1, [e0C1])] := by
    rw [workCell]
    show forceCalcStk (subCellsInterStk (fun _ => (0:ℚ)) (fun _ => 0)
      [PTree.leaf [e0C1] aggLC1]) 0 [PTree.leaf [e0C1] aggLC1] = _
    rw [subCellsInterStk, subCellsInterStk, forceCalcStk, forceCalcStk]
    have hloc : e0C1.loc.isLocal = true := rfl
    simp [hloc, ase_W]
  rw [hwc]
  rfl

theorem treeW_ne : treeW.isLeaf = true → treeW.entsOf ≠ [] := fun _ => by
  rw [show treeW = PTree.leaf [e0C1] agg0C1 from rfl, entsOf_leaf]
  simp

theorem C2_apply_sub_cells_each_local_once_witness :
    MassPos treeW ∧ (treeW.isLeaf = true → treeW.entsOf ≠ []) ∧
    ∃ calls,
      applySubCellsStk (updateBranches 0 treeW) 0 1
        [updateBranches 0 treeW] = some calls ∧
      (calls.map Prod.fst).Perm
        (treeW.entsOf.filter fun e => e.loc.isLocal) ∧
      ∀ call ∈ calls, call.1.loc.isLocal = true :=
  ⟨massPos_treeW, treeW_ne,
    C2_apply_sub_cells_each_local_once 0 0 1 treeW massPos_treeW treeW_ne⟩

theorem C1_neighbor_lists_witness :
    (0:ℚ) ≤ 0 ∧ (0:ℚ) ≤ 0 ∧ MassPos treeW ∧
    ∀ call ∈ [(e0C1, [e0C1])],
      (∀ q ∈ treeW.entsOf, within call.1.pos q.pos 0 → q ∈ call.2) ∧
      (treeW.entsOf.Nodup → call.2.Nodup) :=
  ⟨le_refl 0, le_refl 0, massPos_treeW,
    C1_neighbor_lists 0 0 (le_refl 0) (le_refl 0) 1 treeW massPos_treeW
      [(e0C1, [e0C1])] (by rw [hupd_W]; exact asc_W)⟩

/-! ## Distributed sort (`mpi_sort_unbalanced`, part_003:759-937)

A particle in the sort is represented by its `(key, id)` pair (the
code sorts `std::vector<std::pair<entity_key_t, body>>`; only the key
and the body's id participate in ordering questions). -/

/-- The comparator passed to `std::sort` in `mpi_sort_unbalanced`, both
in the initial local sort (part_003:769-773) and in the final sort of
the received concatenation (part_003:912-915):
`left.first < right.first` — the key alone, with *no* id tie-break. -/
def mpiSortCmp (a b : ℕ × ℕ) : Prop := a.1 < b.1

instance (a b : ℕ × ℕ) : Decidable (mpiSortCmp a b) := by
  unfold mpiSortCmp; infer_instance

/-- The contract of `std::sort(v, comp)`: the result is *some*
permutation of the input in which no later element compares before an
earlier one.  `std::sort` is not stable, so the relative order of
elements that compare equal under `comp` is unspecified, and any
permutation satisfying this predicate is a possible outcome. -/
def IsCppSortResult (inp out : List (ℕ × ℕ)) : Prop :=
  inp.Perm out ∧ out.Pairwise (fun a b => ¬ mpiSortCmp b a)

/-- The particle sequence a rank holds when `mpi_sort_unbalanced`
returns: the single-rank path (part_003:768-777) sorts by `mpiSortCmp`
and returns; the multi-rank path ends with the same
`sort(rbodies.begin(), rbodies.end(), ...)` by key (part_003:912-915).
The duplicate check that would reject equal keys is commented out
(part_003:917-922). -/
def mpiSortUnbalancedResult (inp out : List (ℕ × ℕ)) : Prop :=
  IsCppSortResult inp out

/-- The order the claim asserts: strictly increasing in `(key, id)`
lexicographic order — non-decreasing keys, equal keys in ascending id
order, and no duplicated `(key, id)` pair. -/
def keyIdLt (a b : ℕ × ℕ) : Prop :=
  a.1 < b.1 ∨ (a.1 = b.1 ∧ a.2 < b.2)

instance (a b : ℕ × ℕ) : Decidable (keyIdLt a b) := by
  unfold keyIdLt; infer_instance

/-- **C4, counterexample.**  `[(5,2),(5,1)]` (two particles with equal
key, ids out of order) is a possible output of the code's final sort
for the input `[(5,2),(5,1)]` — the comparator compares keys only —
but it is not ordered by ascending id within the equal key; and
`[(5,1),(5,1)]` (a duplicated `(key, id)` pair) passes through the
sort with no error, the duplicate assert being commented out. -/
theorem C4_counterexample :
    mpiSortUnbalancedResult [(5, 2), (5, 1)] [(5, 2), (5, 1)] ∧
    ¬ ([(5, 2), (5, 1)] : List (ℕ × ℕ)).Pairwise keyIdLt ∧
    mpiSortUnbalancedResult [(5, 1), (5, 1)] [(5, 1), (5, 1)] ∧
    ¬ ([(5, 1), (5, 1)] : List (ℕ × ℕ)).Pairwise keyIdLt := by
  refine ⟨⟨List.Perm.refl _, ?_⟩, ?_, ⟨List.Perm.refl _, ?_⟩, ?_⟩ <;> decide

/-- **C4 (amended).**  After the sort completes, the sequence held by a
rank is a permutation of what it received that is non-decreasing in
key; nothing orders equal keys (the comparator has no id tie-break)
and duplicate `(key, id)` pairs are not rejected. -/
theorem C4_sort_sorted_by_key (inp out : List (ℕ × ℕ))
    (h : mpiSortUnbalancedResult inp out) :
    inp.Perm out ∧ out.Pairwise (fun a b => a.1 ≤ b.1) :=
  ⟨h.1, h.2.imp fun hab => le_of_not_lt hab⟩

theorem C4_sort_sorted_by_key_witness :
    mpiSortUnbalancedResult [(2, 0), (1, 7)] [(1, 7), (2, 0)] ∧
    ([(2, 0), (1, 7)] : List (ℕ × ℕ)).Perm [(1, 7), (2, 0)] ∧
    ([(1, 7), (2, 0)] : List (ℕ × ℕ)).Pairwise (fun a b => a.1 ≤ b.1) := by
  have hres : mpiSortUnbalancedResult [(2, 0), (1, 7)] [(1, 7), (2, 0)] := by
    constructor
    · decide
    · decide
  have := C4_sort_sorted_by_key [(2, 0), (1, 7)] [(1, 7), (2, 0)] hres
  exact ⟨hres, this.1, this.2⟩

/-- **C8.** Running the center-of-mass post-order aggregation twice in a
row on an unchanged tree yields exactly the same mass, center-of-mass
coordinates, bounding box and sub-entity count in every branch as
running it once: both `update_branches` (tree_topology.h:451) and the
FMM-side `tree_traversal_com` (part_003:684) recompute each aggregate
purely from the (unchanged) particles and tree structure, so a second
traversal reproduces the first one identically. -/
theorem C8_com_aggregation_idempotent {dim : ℕ} (epsilon : ℚ) (t : PTree dim) :
    updateBranches epsilon (updateBranches epsilon t) = updateBranches epsilon t ∧
    comUpdate (comUpdate t) = comUpdate t :=
  ⟨updateBranches_idem epsilon t, comUpdate_idem t⟩

/-! ## The branch hash map: `refine_`, `coarsen_`, `child`, `get`

`branch_map_` is `std::unordered_map<branch_id_t, branch_t>`; it is
modelled as an association list with first-match lookup.  A branch id
(`branch_id_t`) is the Morton path from the root; `bid.push(ci)`
appends one more child index (deepest first in the list model). -/

/-- A branch id: the child-index path from the root, deepest index
first (`branch_id_t`; the root is `[]`). -/
abbrev Key : Type := List ℕ

/-- Modelled from the spec: `branch_id_t::push(ci)` — one more child
index at the deep end of the path (the key class lives in
tree_branch.h, which is not under src/). -/
def Key.push (k : Key) (i : ℕ) : Key := i :: k

/-- Modelled from the spec: the branch payload the hash map stores —
its leaf flag and its entity list (entity ids); the `branch` class
(tree_branch.h, with `is_leaf`, `set_leaf`, `insert`, `into_leaf_`) is
not under src/. -/
structure Br : Type where
  leaf : Bool
  ents : List ℕ
deriving DecidableEq

/-- The branch hash map `branch_map_`. -/
abbrev BMap : Type := List (Key × Br)

/-- `branch_map_.find(k)` (first-match association-list lookup). -/
def lookupM : BMap → Key → Option Br
  | [], _ => none
  | (k1, b) :: m, k => if k1 = k then some b else lookupM m k

/-- `branch_map_.emplace(k, b)`: inserts only when the key is absent
(`std::unordered_map::emplace` never overwrites). -/
def insertM (m : BMap) (k : Key) (b : Br) : BMap :=
  match lookupM m k with
  | some _ => m
  | none => (k, b) :: m

/-- `branch_map_.erase(k)`. -/
def eraseM : BMap → Key → BMap
  | [], _ => []
  | (k1, b) :: m, k => if k1 = k then eraseM m k else (k1, b) :: eraseM m k

/-- In-place mutation of the branch stored under `k` (writing through
the reference `itr->second`). -/
def mapValM : BMap → Key → (Br → Br) → BMap
  | [], _, _ => []
  | (k1, b) :: m, k, f =>
    (if k1 = k then (k1, f b) else (k1, b)) :: mapValM m k f

/-- `b.set_leaf(v)` / `b->into_leaf_()` on the branch stored at `k`. -/
def setLeafM (m : BMap) (k : Key) (v : Bool) : BMap :=
  mapValM m k fun b => ⟨v, b.ents⟩

/-- The entity-move loop of `coarsen_` (tree_topology.h:1731-1735):
append the child `c`'s entities to `p`'s list (`p->insert(ent)` for
each entity of `*c`). -/
def moveEnts (m : BMap) (c p : Key) : BMap :=
  match lookupM m c with
  | none => m
  | some cb => mapValM m p fun pb => ⟨pb.leaf, pb.ents ++ cb.ents⟩

/-- `tree_topology::child(b, ci)` (tree_topology.h:266-282): look up
`push(b.id, ci)` in the hash map; `nullptr` (`none`) when absent. -/
def childM (m : BMap) (k : Key) (i : ℕ) : Option Br :=
  lookupM m (k.push i)

/-- The hash-map effect of `refine_` (tree_topology.h:1683-1710) on
keys and leaf flags: emplace all `num_children` child keys
(default-constructed branches are leaves with no entities), then
`b.set_leaf(false)`.  The re-insertion of `b`'s entities runs through
`insert(ent, depth)` and appears as further `mutate`/`refine` steps of
the reachability relation below. -/
def refineKeys (nch : ℕ) (m : BMap) (k : Key) : BMap :=
  setLeafM
    ((List.range nch).foldl (fun mm i => insertM mm (k.push i) ⟨true, []⟩) m)
    k false

mutual
/-- `coarsen_(p, b)` (tree_topology.h:1715-1741): return at a leaf,
else process the `num_children` children in order.  `fuel` bounds the
recursion depth (the C++ recursion descends one key level per call);
`none` models the null-pointer dereference of a missing child (or fuel
exhaustion, which a real bounded-depth map never reaches). -/
def coarsenRec (nch fuel : ℕ) (m : BMap) (p b : Key) : Option BMap :=
  match fuel with
  | 0 => none
  | fuel' + 1 =>
    match lookupM m b with
    | none => none
    | some bb =>
      if bb.leaf then some m
      else coarsenKids nch fuel' m p b (List.range nch)
termination_by (fuel, 0)

/-- The child loop of `coarsen_(p, b)` (tree_topology.h:1726-1738):
for each child index, dereference the child (`child_`, `none` when
absent), move its entities into `p`, recursively coarsen it, then
erase its key. -/
def coarsenKids (nch fuel : ℕ) (m : BMap) (p b : Key) (idxs : List ℕ) :
    Option BMap :=
  match idxs with
  | [] => some m
  | i :: rest =>
    match lookupM m (b.push i) with
    | none => none
    | some _ =>
      match coarsenRec nch fuel (moveEnts m (b.push i) p) p (b.push i) with
      | none => none
      | some m2 => coarsenKids nch fuel (eraseM m2 (b.push i)) p b rest
termination_by (fuel, idxs.length + 1)
end

/-- `coarsen_(p)` (tree_topology.h:1743-1749): coarsen the whole
subtree below `p`, then `p->into_leaf_()`. -/
def coarsenAt (nch : ℕ) (m : BMap) (p : Key) : Option BMap :=
  (coarsenRec nch (m.length + 1) m p p).map fun mm => setLeafM mm p true

/-- `get(branch_id)` (tree_topology.h:1340-1348): hash-map find,
`assert(itr != branch_map_.end())` — `none` models the assertion
failure — then return the stored branch; the map, returned alongside,
is not modified (`get` only reads `branch_map_`). -/
def getB (m : BMap) (k : Key) : Option (Br × BMap) :=
  match lookupM m k with
  | none => none
  | some b => some (b, m)

/-- The hash-map-affecting primitive operations of the tree: an
in-place mutation of one branch's entity list (`branch::insert`,
`remove`, `clear`, `reset` — used by `insert`, `remove` and by the
re-insertion loop of `refine_`), the key/leaf-flag effect of
`refine_`, a completed `coarsen_`, and the root-only reset of
`update_all` (tree_topology.h:342-343).  A run of the C++ mutators
unfolds into a finite sequence of these steps. -/
inductive Step (nch : ℕ) : BMap → BMap → Prop where
  | mutate (m : BMap) (k : Key) (es : List ℕ) :
      Step nch m (mapValM m k fun b => ⟨b.leaf, es⟩)
  | refine (m : BMap) (k : Key) : Step nch m (refineKeys nch m k)
  | coarsen (m : BMap) (k : Key) (m2 : BMap)
      (h : coarsenAt nch m k = some m2) : Step nch m m2
  | reset (m : BMap) (es : List ℕ) : Step nch m [([], ⟨true, es⟩)]

/-- The constructor's initial map (tree_topology.h:214): the root
branch alone, a leaf. -/
def m0 : BMap := [([], ⟨true, []⟩)]

/-- The branch maps reachable from a freshly constructed tree. -/
def ReachableB (nch : ℕ) (m : BMap) : Prop :=
  Relation.ReflTransGen (Step nch) m0 m

/-- Presence and leaf flag under a key (all the invariant below needs
of a branch). -/
def lookupLeaf (m : BMap) (k : Key) : Option Bool :=
  (lookupM m k).map Br.leaf

/-- The claim's invariant: the root key is present and every non-leaf
branch has all `num_children` child keys present. -/
def InvB (nch : ℕ) (m : BMap) : Prop :=
  (lookupLeaf m []).isSome ∧
  ∀ k, lookupLeaf m k = some false → ∀ i, i < nch →
    (lookupLeaf m (k.push i)).isSome

/-- `k` is a strict descendant of `b` (its key path extends `b`'s). -/
def StrictDesc (b k : Key) : Prop := ∃ s : List ℕ, s ≠ [] ∧ k = s ++ b

theorem lookupM_mapValM (m : BMap) (k : Key) (f : Br → Br) (k2 : Key) :
    lookupM (mapValM m k f) k2 =
      if k2 = k then (lookupM m k).map f else lookupM m k2 := by
  induction m with
  | nil => by_cases h : k2 = k <;> simp [mapValM, lookupM, h]
  | cons e m ih =>
    obtain ⟨k1, b1⟩ := e
    rw [mapValM]
    by_cases h1 : k1 = k <;> by_cases h2 : k2 = k1
    · rw [if_pos h1]
      subst h2; subst h1
      simp [lookupM]
    · rw [if_pos h1]
      subst h1
      simp [lookupM, ih, h2, Ne.symm h2]
    · rw [if_neg h1]
      subst h2
      simp [lookupM, h1]
    · rw [if_neg h1]
      simp [lookupM, ih, h1, h2, Ne.symm h2]

theorem lookupM_insertM (m : BMap) (k : Key) (b : Br) (k2 : Key) :
    lookupM (insertM m k b) k2 =
      if k2 = k then some ((lookupM m k).getD b) else lookupM m k2 := by
  unfold insertM
  cases h : lookupM m k with
  | none =>
    by_cases h2 : k2 = k
    · subst h2; simp [lookupM, h]
    · simp [lookupM, h2, Ne.symm h2]
  | some c =>
    by_cases h2 : k2 = k
    · subst h2; simp [h]
    · simp [h2]

theorem lookupM_eraseM (m : BMap) (k k2 : Key) :
    lookupM (eraseM m k) k2 = if k2 = k then none else lookupM m k2 := by
  induction m with
  | nil => by_cases h : k2 = k <;> simp [eraseM, lookupM, h]
  | cons e m ih =>
    obtain ⟨k1, b1⟩ := e
    rw [eraseM]
    by_cases h1 : k1 = k <;> by_cases h2 : k2 = k1
    · rw [if_pos h1]
      subst h2; subst h1
      simp [ih]
    · rw [if_pos h1]
      subst h1
      simp [lookupM, ih, h2, Ne.symm h2]
    · rw [if_neg h1]
      subst h2
      simp [lookupM, h1]
    · rw [if_neg h1]
      simp [lookupM, ih, h1, h2, Ne.symm h2]

theorem lookupLeaf_mapValM_keep (m : BMap) (k : Key) (f : Br → Br)
    (hf : ∀ b, (f b).leaf = b.leaf) (k2 : Key) :
    lookupLeaf (mapValM m k f) k2 = lookupLeaf m k2 := by
  rw [lookupLeaf, lookupM_mapValM]
  by_cases h : k2 = k
  · subst h
    rw [if_pos rfl, lookupLeaf, Option.map_map]
    cases lookupM m k2 with
    | none => rfl
    | some b => simp [Function.comp, hf]
  · rw [if_neg h, lookupLeaf]

theorem lookupLeaf_moveEnts (m : BMap) (c p k : Key) :
    lookupLeaf (moveEnts m c p) k = lookupLeaf m k := by
  rw [moveEnts]
  cases lookupM m c with
  | none => rfl
  | some cb =>
    exact lookupLeaf_mapValM_keep m p
      (fun pb => ⟨pb.leaf, pb.ents ++ cb.ents⟩) (fun b => rfl) k

theorem lookupLeaf_setLeafM (m : BMap) (k : Key) (v : Bool) (k2 : Key) :
    lookupLeaf (setLeafM m k v) k2 =
      if k2 = k then (lookupLeaf m k).map (fun _ => v) else lookupLeaf m k2 := by
  rw [lookupLeaf, setLeafM, lookupM_mapValM]
  by_cases h : k2 = k
  · rw [if_pos h, if_pos h, lookupLeaf, Option.map_map, Option.map_map]
    rfl
  · rw [if_neg h, if_neg h, lookupLeaf]

theorem lookupLeaf_eraseM (m : BMap) (k k2 : Key) :
    lookupLeaf (eraseM m k) k2 = if k2 = k then none else lookupLeaf m k2 := by
  rw [lookupLeaf, lookupM_eraseM]
  by_cases h : k2 = k
  · rw [if_pos h, if_pos h, Option.map_none']
  · rw [if_neg h, if_neg h, lookupLeaf]

theorem strictDesc_push (b : Key) (i : ℕ) : StrictDesc b (b.push i) :=
  ⟨[i], by simp, rfl⟩

theorem not_strictDesc_self (b : Key) : ¬ StrictDesc b b := by
  rintro ⟨s, hs, heq⟩
  have := congrArg List.length heq
  simp at this
  exact hs this

theorem strictDesc_of_push {b k : Key} {i : ℕ}
    (h : StrictDesc (b.push i) k) : StrictDesc b k := by
  obtain ⟨s, hs, rfl⟩ := h
  exact ⟨s ++ [i], by simp, by simp [Key.push]⟩

theorem not_strictDesc_push_self (b : Key) (i : ℕ) :
    ¬ StrictDesc (b.push i) b := by
  rintro ⟨s, hs, heq⟩
  have := congrArg List.length heq
  simp [Key.push] at this
  omega

theorem push_ne_self (b : Key) (i : ℕ) : b ≠ b.push i := by
  intro h
  have := congrArg List.length h
  simp [Key.push] at this

theorem push_inj {k k2 : Key} {i i2 : ℕ} (h : k.push i = k2.push i2) :
    i = i2 ∧ k = k2 := by
  rw [Key.push, Key.push] at h
  exact ⟨List.head_eq_of_cons_eq h, List.tail_eq_of_cons_eq h⟩

theorem not_strictDesc_nil (p : Key) : ¬ StrictDesc p [] := by
  rintro ⟨s, hs, heq⟩
  rw [List.nil_eq, List.append_eq_nil] at heq
  exact hs heq.1

/-- What a completed `coarsenRec` call guarantees, relative to an
exception set `ex` of branches whose child sets are being dismantled
by enclosing calls: the child-presence invariant still holds away
from `ex` and the coarsened branch `b`; leaf flags outside `b`'s
strict subtree are untouched; inside it, a branch either keeps its
flag or is erased. -/
def CoarsenRecSpec (nch fuel : ℕ) : Prop :=
  ∀ (m : BMap) (p b : Key) (m2 : BMap) (ex : Key → Prop),
    coarsenRec nch fuel m p b = some m2 →
    (∀ k, lookupLeaf m k = some false → ¬ ex k → ∀ i, i < nch →
      (lookupLeaf m (k.push i)).isSome) →
    (∀ k, ex k → ¬ StrictDesc b k ∧ k ≠ b) →
    ((∀ k, lookupLeaf m2 k = some false → ¬ ex k → k ≠ b → ∀ i, i < nch →
      (lookupLeaf m2 (k.push i)).isSome) ∧
     (∀ k, ¬ StrictDesc b k → lookupLeaf m2 k = lookupLeaf m k) ∧
     (∀ k, StrictDesc b k → lookupLeaf m2 k = lookupLeaf m k ∨
       lookupLeaf m2 k = none))

/-- The same contract for the child loop `coarsenKids` (whose entry
state already has `b` partially dismantled, so `b` joins the
exceptions of the hypothesis). -/
def CoarsenKidsSpec (nch fuel : ℕ) : Prop :=
  ∀ (idxs : List ℕ) (m : BMap) (p b : Key) (m2 : BMap) (ex : Key → Prop),
    coarsenKids nch fuel m p b idxs = some m2 →
    (∀ k, lookupLeaf m k = some false → ¬ ex k → k ≠ b → ∀ i, i < nch →
      (lookupLeaf m (k.push i)).isSome) →
    (∀ k, ex k → ¬ StrictDesc b k ∧ k ≠ b) →
    ((∀ k, lookupLeaf m2 k = some false → ¬ ex k → k ≠ b → ∀ i, i < nch →
      (lookupLeaf m2 (k.push i)).isSome) ∧
     (∀ k, ¬ StrictDesc b k → lookupLeaf m2 k = lookupLeaf m k) ∧
     (∀ k, StrictDesc b k → lookupLeaf m2 k = lookupLeaf m k ∨
       lookupLeaf m2 k = none))

theorem coarsenKids_spec_of (nch fuel : ℕ)
    (hrec : CoarsenRecSpec nch fuel) : CoarsenKidsSpec nch fuel := by
  intro idxs
  induction idxs with
  | nil =>
    intro m p b m2 ex h hinv hex
    rw [coarsenKids] at h
    have hm : m = m2 := Option.some.inj h
    subst hm
    exact ⟨hinv, fun k _ => rfl, fun k _ => Or.inl rfl⟩
  | cons i rest ih =>
    intro m p b m2 ex h hinv hex
    rw [coarsenKids] at h
    cases hc : lookupM m (b.push i) with
    | none =>
      simp only [hc] at h
      cases h
    | some cb =>
      simp only [hc] at h
      cases hr : coarsenRec nch fuel (moveEnts m (b.push i) p) p (b.push i) with
      | none =>
        simp only [hr] at h
        cases h
      | some mr =>
        simp only [hr] at h
        have hinv1 : ∀ k, lookupLeaf (moveEnts m (b.push i) p) k = some false →
            ¬ (ex k ∨ k = b) → ∀ j, j < nch →
            (lookupLeaf (moveEnts m (b.push i) p) (k.push j)).isSome := by
          intro k hk hnex j hj
          rw [lookupLeaf_moveEnts] at hk ⊢
          exact hinv k hk (fun hx => hnex (Or.inl hx))
            (fun hb => hnex (Or.inr hb)) j hj
        have hex1 : ∀ k, (ex k ∨ k = b) →
            ¬ StrictDesc (b.push i) k ∧ k ≠ b.push i := by
          intro k hk
          rcases hk with hk | rfl
          · obtain ⟨hnd, _⟩ := hex k hk
            exact ⟨fun hd => hnd (strictDesc_of_push hd),
              fun he => hnd (he ▸ strictDesc_push b i)⟩
          · exact ⟨not_strictDesc_push_self k i, push_ne_self k i⟩
        obtain ⟨R1, R2, R3⟩ := hrec _ p (b.push i) mr
          (fun k => ex k ∨ k = b) hr hinv1 hex1
        have hinv3 : ∀ k, lookupLeaf (eraseM mr (b.push i)) k = some false →
            ¬ ex k → k ≠ b → ∀ j, j < nch →
            (lookupLeaf (eraseM mr (b.push i)) (k.push j)).isSome := by
          intro k hk hnex hkb j hj
          rw [lookupLeaf_eraseM] at hk
          by_cases hkbi : k = b.push i
          · rw [if_pos hkbi] at hk; cases hk
          · rw [if_neg hkbi] at hk
            have hch := R1 k hk (fun hx => hx.elim hnex hkb) hkbi j hj
            rw [lookupLeaf_eraseM, if_neg ?hne]
            · exact hch
            case hne =>
              intro heq
              exact hkb (push_inj heq).2
        obtain ⟨K1, K2, K3⟩ := ih _ p b m2 ex h hinv3 hex
        refine ⟨K1, ?_, ?_⟩
        · intro k hnd
          have h1 : ¬ StrictDesc (b.push i) k :=
            fun hd => hnd (strictDesc_of_push hd)
          have hkbi : k ≠ b.push i := fun he => hnd (he ▸ strictDesc_push b i)
          rw [K2 k hnd, lookupLeaf_eraseM, if_neg hkbi, R2 k h1,
            lookupLeaf_moveEnts]
        · intro k hd
          by_cases hkbi : k = b.push i
          · rcases K3 k hd with hkk | hnone
            · right
              rw [hkk, lookupLeaf_eraseM, if_pos hkbi]
            · exact Or.inr hnone
          · by_cases hdp : StrictDesc (b.push i) k
            · rcases K3 k hd with hkk | hnone
              · rcases R3 k hdp with hrr | hrnone
                · left
                  rw [hkk, lookupLeaf_eraseM, if_neg hkbi, hrr,
                    lookupLeaf_moveEnts]
                · right
                  rw [hkk, lookupLeaf_eraseM, if_neg hkbi, hrnone]
              · exact Or.inr hnone
            · rcases K3 k hd with hkk | hnone
              · left
                rw [hkk, lookupLeaf_eraseM, if_neg hkbi, R2 k hdp,
                  lookupLeaf_moveEnts]
              · exact Or.inr hnone

theorem coarsenRec_spec (nch : ℕ) : ∀ fuel, CoarsenRecSpec nch fuel := by
  intro fuel
  induction fuel with
  | zero =>
    intro m p b m2 ex h hinv hex
    rw [coarsenRec] at h
    cases h
  | succ n ih =>
    intro m p b m2 ex h hinv hex
    rw [coarsenRec] at h
    cases hb : lookupM m b with
    | none =>
      simp only [hb] at h
      cases h
    | some bb =>
      simp only [hb] at h
      by_cases hl : bb.leaf
      · rw [if_pos hl] at h
        have hm : m = m2 := Option.some.inj h
        subst hm
        refine ⟨?_, fun k _ => rfl, fun k _ => Or.inl rfl⟩
        intro k hk hnex _ i hi
        exact hinv k hk hnex i hi
      · rw [if_neg hl] at h
        exact coarsenKids_spec_of nch n ih _ m p b m2 ex h
          (fun k hk hnex _ i hi => hinv k hk hnex i hi) hex

theorem lookupLeaf_isSome (m : BMap) (k : Key) :
    (lookupLeaf m k).isSome = (lookupM m k).isSome := by
  rw [lookupLeaf]
  cases lookupM m k <;> rfl

theorem mapIsSome {α : Type} {β : Type} (f : α → β) (o : Option α) :
    (o.map f).isSome = o.isSome := by
  cases o <;> rfl

theorem setLeafM_isSome (m : BMap) (k : Key) (v : Bool) (x : Key) :
    (lookupLeaf (setLeafM m k v) x).isSome = (lookupLeaf m x).isSome := by
  rw [lookupLeaf_setLeafM]
  by_cases h : x = k
  · rw [if_pos h, mapIsSome, h]
  · rw [if_neg h]

theorem foldl_insert_lookup (k : Key) (fr : Br) :
    ∀ (l : List ℕ) (m : BMap) (k2 : Key),
      lookupM (l.foldl (fun mm i => insertM mm (k.push i) fr) m) k2 =
        lookupM m k2 ∨
      (lookupM m k2 = none ∧
        lookupM (l.foldl (fun mm i => insertM mm (k.push i) fr) m) k2 =
          some fr) := by
  intro l
  induction l with
  | nil => intro m k2; exact Or.inl rfl
  | cons i l ih =>
    intro m k2
    rw [List.foldl_cons]
    rcases ih (insertM m (k.push i) fr) k2 with hsame | ⟨hnone, hfr⟩
    · rw [lookupM_insertM] at hsame
      by_cases h2 : k2 = k.push i
      · rw [if_pos h2] at hsame
        cases hm : lookupM m (k.push i) with
        | none =>
          rw [hm] at hsame
          right
          exact ⟨h2 ▸ hm, hsame⟩
        | some c =>
          rw [hm] at hsame
          left
          rw [hsame, h2, hm]
          rfl
      · rw [if_neg h2] at hsame
        exact Or.inl hsame
    · rw [lookupM_insertM] at hnone
      by_cases h2 : k2 = k.push i
      · rw [if_pos h2] at hnone
        cases hnone
      · rw [if_neg h2] at hnone
        exact Or.inr ⟨hnone, hfr⟩

theorem foldl_insert_mem (k : Key) (fr : Br) :
    ∀ (l : List ℕ) (m : BMap) (i : ℕ), i ∈ l →
      (lookupM (l.foldl (fun mm j => insertM mm (k.push j) fr) m)
        (k.push i)).isSome := by
  intro l
  induction l with
  | nil => intro m i hi; cases hi
  | cons j l ih =>
    intro m i hi
    rw [List.foldl_cons]
    rcases List.mem_cons.mp hi with rfl | hi
    · rcases foldl_insert_lookup k fr l (insertM m (k.push i) fr) (k.push i)
        with hsame | ⟨_, hfr⟩
      · rw [hsame, lookupM_insertM, if_pos rfl]
        rfl
      · rw [hfr]
        rfl
    · exact ih _ i hi

theorem invB_refineKeys (nch : ℕ) (m : BMap) (k : Key) (h : InvB nch m) :
    InvB nch (refineKeys nch m k) := by
  obtain ⟨hroot, hinv⟩ := h
  have hmono : ∀ x, (lookupLeaf m x).isSome →
      (lookupLeaf ((List.range nch).foldl
        (fun mm i => insertM mm (k.push i) ⟨true, []⟩) m) x).isSome := by
    intro x hx
    rw [lookupLeaf_isSome] at hx ⊢
    rcases foldl_insert_lookup k ⟨true, []⟩ (List.range nch) m x
      with hsame | ⟨_, hfr⟩
    · rw [hsame]; exact hx
    · rw [hfr]; rfl
  constructor
  · rw [refineKeys, setLeafM_isSome]
    exact hmono [] hroot
  · intro k2 hk2 i hi
    rw [refineKeys, lookupLeaf_setLeafM] at hk2
    by_cases hkk : k2 = k
    · rw [refineKeys, setLeafM_isSome, lookupLeaf_isSome]
      subst hkk
      exact foldl_insert_mem k2 ⟨true, []⟩ (List.range nch) m i
        (List.mem_range.mpr hi)
    · rw [if_neg hkk] at hk2
      have hm2 : lookupLeaf m k2 = some false := by
        rcases foldl_insert_lookup k ⟨true, []⟩ (List.range nch) m k2
          with hsame | ⟨_, hfr⟩
        · rw [lookupLeaf] at hk2 ⊢
          rw [hsame] at hk2
          exact hk2
        · rw [lookupLeaf, hfr] at hk2
          cases hk2
      have hch := hinv k2 hm2 i hi
      rw [refineKeys, setLeafM_isSome]
      exact hmono _ hch

theorem invB_mutate (nch : ℕ) (m : BMap) (k : Key) (es : List ℕ)
    (h : InvB nch m) : InvB nch (mapValM m k fun b => ⟨b.leaf, es⟩) := by
  obtain ⟨hroot, hinv⟩ := h
  have hL : ∀ x, lookupLeaf (mapValM m k fun b => ⟨b.leaf, es⟩) x =
      lookupLeaf m x :=
    fun x => lookupLeaf_mapValM_keep m k (fun b => ⟨b.leaf, es⟩)
      (fun b => rfl) x
  refine ⟨by rw [hL]; exact hroot, ?_⟩
  intro x hx i hi
  rw [hL] at hx ⊢
  exact hinv x hx i hi

theorem invB_reset (nch : ℕ) (es : List ℕ) :
    InvB nch [([], ⟨true, es⟩)] := by
  constructor
  · rw [lookupLeaf, lookupM, if_pos rfl]
    rfl
  · intro x hx i hi
    rw [lookupLeaf, lookupM] at hx
    by_cases h : ([] : Key) = x
    · rw [if_pos h] at hx
      cases hx
    · rw [if_neg h] at hx
      cases hx

theorem invB_coarsenAt (nch : ℕ) (m : BMap) (p : Key) (m2 : BMap)
    (h : coarsenAt nch m p = some m2) (hinv : InvB nch m) : InvB nch m2 := by
  obtain ⟨hroot, hi⟩ := hinv
  rw [coarsenAt] at h
  cases hr : coarsenRec nch (m.length + 1) m p p with
  | none => rw [hr] at h; cases h
  | some m1 =>
    rw [hr] at h
    have hm2 : m2 = setLeafM m1 p true := (Option.some.inj h).symm
    subst hm2
    obtain ⟨C1, C2, _⟩ := coarsenRec_spec nch (m.length + 1) m p p m1
      (fun _ => False) hr (fun k hk _ i hi2 => hi k hk i hi2)
      (fun k hk => hk.elim)
    constructor
    · rw [setLeafM_isSome]
      rw [lookupLeaf_isSome] at hroot ⊢
      rw [← lookupLeaf_isSome, C2 [] (not_strictDesc_nil p),
        lookupLeaf_isSome]
      exact hroot
    · intro k hk i hi2
      rw [lookupLeaf_setLeafM] at hk
      by_cases hkp : k = p
      · rw [if_pos hkp] at hk
        cases hl : lookupLeaf m1 p with
        | none => rw [hl] at hk; cases hk
        | some v => rw [hl] at hk; cases hk
      · rw [if_neg hkp] at hk
        have hch := C1 k hk not_false hkp i hi2
        rw [setLeafM_isSome]
        exact hch

theorem invB_step (nch : ℕ) (m m2 : BMap) (h : Step nch m m2)
    (hinv : InvB nch m) : InvB nch m2 := by
  cases h with
  | mutate k es => exact invB_mutate nch m k es hinv
  | refine k => exact invB_refineKeys nch m k hinv
  | coarsen k m2 hc => exact invB_coarsenAt nch m k _ hc hinv
  | reset es => exact invB_reset nch es

theorem invB_m0 (nch : ℕ) : InvB nch m0 := invB_reset nch []

theorem invB_reachable (nch : ℕ) (m : BMap) (h : ReachableB nch m) :
    InvB nch m := by
  rw [ReachableB] at h
  induction h with
  | refl => exact invB_m0 nch
  | tail hab hbc ih => exact invB_step nch _ _ hbc ih

/-- **C9.**  On every branch map reachable from the freshly
constructed tree by the `insert`/`refine_`/`coarsen_` primitives, the
root key is present and every branch stored as non-leaf has all
`nch = 2^dim` child keys `push(b.id, i)`, `i < nch`, present in the
hash map — `refine_` emplaces all children before `set_leaf(false)`,
and a completed `coarsen_` erases only strict descendants of its
argument, whose surviving ancestors it re-marks a leaf.  Consequently
`child(b, i)` never returns `nullptr` for a stored non-leaf branch. -/
theorem C9_refine_coarsen_children_present (nch : ℕ) (m : BMap)
    (hm : ReachableB nch m) :
    (lookupM m []).isSome ∧
    ∀ k bk, lookupM m k = some bk → bk.leaf = false → ∀ i, i < nch →
      (childM m k i).isSome := by
  obtain ⟨hroot, hinv⟩ := invB_reachable nch m hm
  constructor
  · rw [← lookupLeaf_isSome]
    exact hroot
  · intro k bk hk hleaf i hi
    have h2 : lookupLeaf m k = some false := by
      rw [lookupLeaf, hk, Option.map_some', hleaf]
    rw [childM, ← lookupLeaf_isSome]
    exact hinv k h2 i hi

theorem C9_refine_coarsen_children_present_witness :
    ReachableB 2 (refineKeys 2 m0 []) ∧
    (childM (refineKeys 2 m0 []) [] 0).isSome ∧
    (childM (refineKeys 2 m0 []) [] 1).isSome := by
  have hr : ReachableB 2 (refineKeys 2 m0 []) :=
    Relation.ReflTransGen.single (Step.refine m0 [])
  have h := C9_refine_coarsen_children_present 2 _ hr
  exact ⟨hr,
    h.2 [] ⟨false, []⟩ (by decide) rfl 0 (by decide),
    h.2 [] ⟨false, []⟩ (by decide) rfl 1 (by decide)⟩

/-- **C10.**  `get(branch_id)` with an absent key fails the assertion
(the model's `none`); with a present key it returns exactly the branch
stored under it together with the unchanged branch map. -/
theorem C10_get_assert (m : BMap) (k : Key) :
    ((lookupM m k).isNone → getB m k = none) ∧
    (∀ b, lookupM m k = some b → getB m k = some (b, m)) ∧
    (∀ b m2, getB m k = some (b, m2) → m2 = m ∧ lookupM m k = some b) := by
  refine ⟨?_, ?_, ?_⟩
  · intro h
    cases hm : lookupM m k with
    | none => simp [getB, hm]
    | some b => rw [hm] at h; cases h
  · intro b hb
    simp [getB, hb]
  · intro b m2 hg
    cases hm : lookupM m k with
    | none => simp [getB, hm] at hg
    | some c =>
      simp [getB, hm] at hg
      exact ⟨hg.2.symm, congrArg some hg.1⟩

theorem C10_get_assert_witness :
    getB m0 [5] = none ∧ getB m0 [] = some (⟨true, []⟩, m0) :=
  ⟨(C10_get_assert m0 [5]).1 (by decide),
   (C10_get_assert m0 []).2.1 ⟨true, []⟩ (by decide)⟩

/-! ## The two radius searches: `find_in_radius_b` vs `find_in_radius`

`find_in_radius` starts from `find_start_`, which needs the Morton
anchor coordinates of branch keys; the model instantiates dimension 1
on the unit range `[0,1]` (the default constructor's range), with
branch keys as root-to-leaf paths of half-interval choices
(`false` = lower half).  1-D distance comparisons `|a-b| ≤ r` are
modelled, as everywhere in this file, by squared comparisons. -/

/-- A 1-D branch key of the find model, shallowest choice first. -/
abbrev KeyF : Type := List Bool

/-- `distance(a, b) ≤ r` in one dimension (squared form). -/
def within1 (a b r : ℚ) : Prop := (a - b) ^ 2 ≤ r ^ 2

instance (a b r : ℚ) : Decidable (within1 a b r) := by
  unfold within1; infer_instance

/-- Modelled from the spec: `b->id().coordinates(range_)` — the lower
corner of the key's voxel on the unit range (the key class lives in
tree_branch.h, which is not under src/). -/
def anchorK : KeyF → ℚ
  | [] => 0
  | b :: k => (if b then 1 / 2 else 0) + anchorK k / 2

/-- Modelled from the spec: `to_branch_id(p, depth)`
(tree_topology.h:1574-1581) — the depth-bit Morton key of coordinate
`p` in `[0, 1)`. -/
def toBranchId : ℚ → ℕ → KeyF
  | _, 0 => []
  | c, d + 1 =>
    if c < 1 / 2 then false :: toBranchId (2 * c) d
    else true :: toBranchId (2 * c - 1) d

/-- Modelled from the spec: the branch payload the find model reads —
leaf flag, entity coordinates, stored bounding box (tree_branch.h is
not under src/). -/
structure FBr : Type where
  leaf : Bool
  ents : List ℚ
  bmin : ℚ
  bmax : ℚ
deriving DecidableEq

/-- The branch hash map of the 1-D find model. -/
abbrev FMap : Type := List (KeyF × FBr)

def lookupF : FMap → KeyF → Option FBr
  | [], _ => none
  | (k1, b) :: m, k => if k1 = k then some b else lookupF m k

/-- `find_parent_` (tree_topology.h:1637-1651): pop the key until a
present prefix is found (`none` when even the root key is absent). -/
def findParentF (m : FMap) : KeyF → Option (KeyF × FBr)
  | [] =>
    match lookupF m [] with
    | some b => some ([], b)
    | none => none
  | x :: xs =>
    match lookupF m (x :: xs) with
    | some b => some (x :: xs, b)
    | none => findParentF m (x :: xs).dropLast
termination_by k => k.length
decreasing_by
  simp [List.length_dropLast]

/-- `find_start_` (tree_topology.h:1762-1814): walk `d` downward from
the depth of the center's `max_depth_` key; at each `d` find the
deepest present ancestor `b` of the key truncated to depth `d`, set
`size = 2^-d`, and return `b` as soon as the center is NOT within
`radius` of `b`'s anchor coordinates (the sphere-in-voxel containment
test is commented out in the source and replaced by this
anchor-distance test); at `d = 0` return the root with `size = 1`. -/
def findStartF (m : FMap) (bid : KeyF) (c r : ℚ) :
    ℕ → Option (KeyF × FBr × ℚ)
  | 0 => (lookupF m []).map fun b => ([], b, 1)
  | d + 1 =>
    match findParentF m (bid.take (d + 1)) with
    | none => none
    | some (k, b) =>
      if within1 c (anchorK k) r then findStartF m bid c r d
      else some (k, b, (1 / 2) ^ (d + 1))

/-- Modelled from the spec: `geometry_t::intersects(origin, size,
scale, center, radius)` — the sphere `[c-r, c+r]` meets the voxel
`[a, a+size]` (unit scale; tree_geometry.h is not under src/). -/
def intersectsVox (a size c r : ℚ) : Prop :=
  c - r ≤ a + size ∧ a - r ≤ c

instance (a size c r : ℚ) : Decidable (intersectsVox a size c r) := by
  unfold intersectsVox; infer_instance

/-- Modelled from the spec: `geometry_t::intersects_sphere_box(bmin,
bmax, c, r)` in one dimension — the distance from `c` to the interval
`[bmin, bmax]` is at most `r` (tree_geometry.h is not under src/). -/
def intersectsSB (bmin bmax c r : ℚ) : Prop :=
  bmin - r ≤ c ∧ c ≤ bmax + r

instance (bmin bmax c r : ℚ) : Decidable (intersectsSB bmin bmax c r) := by
  unfold intersectsSB; infer_instance

/-- `find_` (tree_topology.h:1946-1982): at a leaf filter the entities
by `ef` (within of coordinates and center); otherwise halve `size` and
recurse into the children whose anchor/voxel passes `bf` =
`geometry_t::intersects` (the `child_` dereference precedes the test:
a missing child is the model's `none`).  `fuel` bounds the descent. -/
def findRec (m : FMap) (c r : ℚ) : ℕ → KeyF → FBr → ℚ → Option (List ℚ)
  | 0, _, _, _ => none
  | fuel + 1, k, b, size =>
    if b.leaf then
      some (b.ents.filter fun x => decide (within1 x c r))
    else
      match lookupF m (k ++ [false]), lookupF m (k ++ [true]) with
      | some b0, some b1 =>
        match
          (if intersectsVox (anchorK (k ++ [false])) (size / 2) c r then
            findRec m c r fuel (k ++ [false]) b0 (size / 2)
          else some []),
          (if intersectsVox (anchorK (k ++ [true])) (size / 2) c r then
            findRec m c r fuel (k ++ [true]) b1 (size / 2)
          else some []) with
        | some l0, some l1 => some (l0 ++ l1)
        | _, _ => none
      | _, _ => none

/-- `find_in_radius(center, radius)` (tree_topology.h:932-953) in the
1-D model: `find_start_` from the center's `max_depth_` key, then the
`find_` descent from the returned branch with its `size`. -/
def findInRadiusF (m : FMap) (maxd : ℕ) (c r : ℚ) : Option (List ℚ) :=
  match findStartF m (toBranchId c maxd) c r maxd with
  | none => none
  | some (k, b, size) => findRec m c r (m.length + 1) k b size

/-- The stack loop of `find_in_radius_b` (tree_topology.h:886-925):
pop a branch; at a leaf filter its entities by within; otherwise push
every child whose STORED bounding box passes `intersects_sphere_box`
(`child(b, i)` is dereferenced before the test — `none` when absent).
Children are pushed in index order, so the higher child is popped
first. -/
def firbF (m : FMap) (c r : ℚ) : ℕ → List (KeyF × FBr) → Option (List ℚ)
  | 0, _ => none
  | _ + 1, [] => some []
  | fuel + 1, (k, b) :: rest =>
    if b.leaf then
      (firbF m c r fuel rest).map
        fun l => (b.ents.filter fun x => decide (within1 x c r)) ++ l
    else
      match lookupF m (k ++ [false]), lookupF m (k ++ [true]) with
      | some b0, some b1 =>
        firbF m c r fuel
          ((if intersectsSB b1.bmin b1.bmax c r then [(k ++ [true], b1)]
            else []) ++
           (if intersectsSB b0.bmin b0.bmax c r then [(k ++ [false], b0)]
            else []) ++ rest)
      | _, _ => none

/-- `find_in_radius_b(center, radius)`: the stack traversal from the
root. -/
def firbTop (m : FMap) (c r : ℚ) : Option (List ℚ) :=
  match lookupF m [] with
  | none => none
  | some rb => firbF m c r (2 * m.length + 2) [([], rb)]

/-- The C3 instance: two particles at `9/20` and `11/20`, one per
depth-1 leaf, with tight stored bounding boxes (`update_branches` with
zero halo); `max_depth_ = 1`.  Query: center `47/100`, radius
`1/10`. -/
def rootC3 : FBr := ⟨false, [], 9 / 20, 11 / 20⟩

def bLC3 : FBr := ⟨true, [9 / 20], 9 / 20, 9 / 20⟩

def bRC3 : FBr := ⟨true, [11 / 20], 11 / 20, 11 / 20⟩

def cexMapC3 : FMap := [([], rootC3), ([false], bLC3), ([true], bRC3)]

theorem lookupF_rootC3 : lookupF cexMapC3 [] = some rootC3 := rfl

theorem lookupF_bLC3 : lookupF cexMapC3 [false] = some bLC3 := rfl

theorem lookupF_bRC3 : lookupF cexMapC3 [true] = some bRC3 := rfl

theorem within1_L_C3 : within1 (9 / 20) (47 / 100) (1 / 10) := by
  rw [within1]
  norm_num

theorem within1_R_C3 : within1 (11 / 20) (47 / 100) (1 / 10) := by
  rw [within1]
  norm_num

theorem within1_L_C3i : within1 (9 / 20) (47 / 100) (10 : ℚ)⁻¹ := by
  rw [within1]
  norm_num

theorem within1_R_C3i : within1 (11 / 20) (47 / 100) (10 : ℚ)⁻¹ := by
  rw [within1]
  norm_num

/-- `find_start_` on the C3 instance returns the LEFT leaf at depth 1:
the center's depth-1 key is `[false]`, and the center `47/100` is NOT
within radius `1/10` of that branch's anchor `0`, so the loop's first
iteration returns it — although the search sphere
`[37/100, 57/100]` sticks out of the branch's voxel `[0, 1/2)`. -/
theorem findStartF_C3 :
    findStartF cexMapC3 (toBranchId (47 / 100) 1) (47 / 100) (1 / 10) 1 =
      some ([false], bLC3, (1 / 2) ^ (1 : ℕ)) := by
  have hbid : toBranchId (47 / 100) 1 = [false] := by
    rw [show (1 : ℕ) = 0 + 1 from rfl, toBranchId, if_pos (by norm_num)]
    rfl
  have hfp : findParentF cexMapC3 [false] = some ([false], bLC3) := by
    rw [findParentF, lookupF_bLC3]
  show findStartF cexMapC3 (toBranchId (47 / 100) 1) (47 / 100) (1 / 10)
    (0 + 1) = some ([false], bLC3, (1 / 2) ^ (0 + 1))
  rw [findStartF, hbid, show ([false] : KeyF).take (0 + 1) = [false] from rfl]
  simp only [hfp]
  rw [if_neg ?hno]
  case hno =>
    rw [within1]
    norm_num [anchorK]

/-- `find_` from the left leaf finds only the left particle. -/
theorem findRec_C3 :
    findRec cexMapC3 (47 / 100) (1 / 10) (cexMapC3.length + 1) [false] bLC3
      ((1 / 2) ^ (1 : ℕ)) = some [9 / 20] := by
  show findRec cexMapC3 (47 / 100) (1 / 10) (3 + 1) [false] bLC3
    ((1 / 2) ^ (1 : ℕ)) = some [9 / 20]
  rw [findRec, if_pos (show bLC3.leaf = true from rfl)]
  simp [bLC3, within1_L_C3, within1_L_C3i]

/-- **C3, the recursive search.**  `find_in_radius` on the C3 instance
returns only the left particle: `find_start_`'s anchor-distance early
return confines the search to the left leaf. -/
theorem findInRadiusF_C3 :
    findInRadiusF cexMapC3 1 (47 / 100) (1 / 10) = some [9 / 20] := by
  simp only [findInRadiusF, findStartF_C3]
  exact findRec_C3

/-- **C3, the stack search.**  `find_in_radius_b` on the same instance
returns both particles (the right one first, the stack popping the
higher child first). -/
theorem firbTop_C3 :
    firbTop cexMapC3 (47 / 100) (1 / 10) = some [11 / 20, 9 / 20] := by
  simp only [firbTop, lookupF_rootC3]
  show firbF cexMapC3 (47 / 100) (1 / 10) (7 + 1) [([], rootC3)] =
    some [11 / 20, 9 / 20]
  rw [firbF, if_neg (show ¬ rootC3.leaf = true from by decide),
    show ([] : KeyF) ++ [false] = [false] from rfl,
    show ([] : KeyF) ++ [true] = [true] from rfl]
  simp only [lookupF_bLC3, lookupF_bRC3]
  rw [if_pos (show intersectsSB bRC3.bmin bRC3.bmax (47 / 100) (1 / 10) from
    ⟨by norm_num [bRC3], by norm_num [bRC3]⟩)]
  rw [if_pos (show intersectsSB bLC3.bmin bLC3.bmax (47 / 100) (1 / 10) from
    ⟨by norm_num [bLC3], by norm_num [bLC3]⟩)]
  show firbF cexMapC3 (47 / 100) (1 / 10) (6 + 1)
    [([true], bRC3), ([false], bLC3)] = some [11 / 20, 9 / 20]
  rw [firbF, if_pos (show bRC3.leaf = true from rfl)]
  have h6 : firbF cexMapC3 (47 / 100) (1 / 10) (5 + 1) [([false], bLC3)] =
      some [9 / 20] := by
    rw [firbF, if_pos (show bLC3.leaf = true from rfl)]
    have h5 : firbF cexMapC3 (47 / 100) (1 / 10) (4 + 1) [] = some [] := by
      rw [firbF]
    rw [h5]
    simp [bLC3, within1_L_C3, within1_L_C3i]
  rw [show (6 : ℕ) = 5 + 1 from rfl, h6]
  simp [bRC3, within1_R_C3, within1_R_C3i]

/-- **C3.**  The two search strategies are not equivalent, and
`find_in_radius` does not return all entities within the radius: on
the two-leaf instance `cexMapC3` with center `47/100` and radius
`1/10`, the stack search returns both particles, but the recursive
search misses the stored in-radius particle `11/20` — `find_start_`
returns the left depth-1 branch because the center is farther than
`radius` from the branch's anchor `0`, a test that does not imply the
search sphere lies inside the branch's voxel (the correct containment
test is commented out at tree_topology.h:1792-1806). -/
theorem C3_find_in_radius_divergence :
    firbTop cexMapC3 (47 / 100) (1 / 10) = some [11 / 20, 9 / 20] ∧
    findInRadiusF cexMapC3 1 (47 / 100) (1 / 10) = some [9 / 20] ∧
    within1 (11 / 20) (47 / 100) (1 / 10) ∧
    lookupF cexMapC3 [true] = some bRC3 ∧
    (11 / 20 : ℚ) ∉ [(9 / 20 : ℚ)] := by
  refine ⟨firbTop_C3, findInRadiusF_C3, within1_R_C3, lookupF_bRC3, ?_⟩
  intro h
  rw [List.mem_singleton] at h
  norm_num at h

end FleCSPH
